import Mathlib

/-!
Verification of the text-to-bit codec core of the repository: the LZ77
compressor (`LZ77.py`), the Huffman compressor (`huffman.py`), the two
fixed-width character codecs (`six_bit_compressor.py`,
`seven_bit_compressor.py`) and the dispatch facade (`compression.py`).
Each Python function is shallowly embedded as an executable Lean
definition; texts are `List Char`, byte strings are `List Nat` (values
below 256) and bitarrays are `List Bool` (big-endian, most significant
bit first, as in the source).
-/

/-! ### Bit-level helpers shared by all codecs (model of `bitarray`). -/

/-- Big-endian bits of `n % 2^w`, exactly `w` bits; models writing a
`w`-bit field MSB-first into a big-endian `bitarray`. -/
def natToBits : Nat → Nat → List Bool
  | 0, _ => []
  | w + 1, n => natToBits w (n / 2) ++ [decide (n % 2 = 1)]

/-- Big-endian value of a bit string; models Python `int(s, 2)` on the
`to01()` string of a bitarray slice. -/
def bitsToNat (bits : List Bool) : Nat :=
  bits.foldl (fun acc b => 2 * acc + (if b then 1 else 0)) 0

theorem natToBits_length (w n : Nat) : (natToBits w n).length = w := by
  induction w generalizing n with
  | zero => simp [natToBits]
  | succ k ih => simp [natToBits, ih]

theorem bitsToNat_foldl (a : Nat) (l : List Bool) :
    l.foldl (fun acc b => 2 * acc + (if b then 1 else 0)) a = a * 2 ^ l.length + bitsToNat l := by
  induction l generalizing a with
  | nil => simp [bitsToNat]
  | cons b t ih =>
    show t.foldl _ (2 * a + _) = _
    rw [ih]
    have hb : bitsToNat (b :: t) = (if b then 1 else 0) * 2 ^ t.length + bitsToNat t := by
      show t.foldl _ (2 * 0 + _) = _
      rw [ih]
      ring_nf
    rw [hb, List.length_cons, Nat.pow_succ]
    ring

theorem bitsToNat_cons (b : Bool) (l : List Bool) :
    bitsToNat (b :: l) = (if b then 1 else 0) * 2 ^ l.length + bitsToNat l := by
  show l.foldl _ (2 * 0 + _) = _
  rw [bitsToNat_foldl]
  ring_nf

theorem bitsToNat_append (l r : List Bool) :
    bitsToNat (l ++ r) = bitsToNat l * 2 ^ r.length + bitsToNat r := by
  show (l ++ r).foldl _ 0 = _
  rw [List.foldl_append, bitsToNat_foldl]
  rfl

theorem bitsToNat_natToBits (w n : Nat) : bitsToNat (natToBits w n) = n % 2 ^ w := by
  induction w generalizing n with
  | zero => simp [natToBits, bitsToNat, Nat.mod_one]
  | succ k ih =>
    rw [natToBits, bitsToNat_append, ih]
    have h2 : n % 2 = 1 ∨ n % 2 = 0 := by omega
    have hval : bitsToNat [decide (n % 2 = 1)] = n % 2 := by
      rcases h2 with h | h <;> simp [h, bitsToNat]
    rw [hval, List.length_singleton, pow_one, Nat.pow_succ', Nat.mod_mul]
    ring

theorem bitsToNat_lt (bits : List Bool) : bitsToNat bits < 2 ^ bits.length := by
  induction bits with
  | nil => simp [bitsToNat]
  | cons b rest ih =>
    rw [bitsToNat_cons]
    have h : (2 : Nat) ^ (b :: rest).length = 2 ^ rest.length + 2 ^ rest.length := by
      rw [List.length_cons, Nat.pow_succ]
      ring
    rw [h]
    split <;> omega

theorem bitsToNat_natToBits_of_lt {w n : Nat} (h : n < 2 ^ w) :
    bitsToNat (natToBits w n) = n := by
  rw [bitsToNat_natToBits, Nat.mod_eq_of_lt h]

/-- Pad a bit string on the right with zero bits up to a multiple of 8;
models `bitarray.fill()` and the zero padding of `bitarray.tobytes()`. -/
def fillBits (bits : List Bool) : List Bool :=
  bits ++ List.replicate ((8 - bits.length % 8) % 8) false

/-- The big-endian bit expansion of a byte string; models
`bitarray.frombytes`. -/
def bytesToBits (bytes : List Nat) : List Bool :=
  bytes.flatMap (fun b => natToBits 8 b)

/-- Chop a bit string into bytes, padding the final byte with zero bits;
models `bitarray.tobytes()`. -/
def bitsToBytes (bits : List Bool) : List Nat :=
  if bits = [] then []
  else
    bitsToNat (bits.take 8 ++ List.replicate (8 - (bits.take 8).length) false)
      :: bitsToBytes (bits.drop 8)
termination_by bits.length
decreasing_by
  rename_i h
  have hlen : bits.length ≠ 0 := fun hh => h (List.eq_nil_of_length_eq_zero hh)
  simp only [List.length_drop]
  omega

theorem bitsToBytes_byte (b : Nat) (rest : List Bool) (hb : b < 256) :
    bitsToBytes (natToBits 8 b ++ rest) = b :: bitsToBytes rest := by
  have hlen : (natToBits 8 b).length = 8 := natToBits_length 8 b
  have hne : ¬ (natToBits 8 b ++ rest = []) := by
    intro h
    have := congrArg List.length h
    simp [hlen] at this
  rw [bitsToBytes.eq_def, if_neg hne]
  have htake : (natToBits 8 b ++ rest).take 8 = natToBits 8 b := by
    rw [List.take_append_of_le_length (by omega), List.take_of_length_le (by omega)]
  have hdrop : (natToBits 8 b ++ rest).drop 8 = rest := by
    rw [List.drop_append_of_le_length (by omega), List.drop_of_length_le (by omega)]
    simp
  rw [htake, hdrop, hlen]
  simp only [Nat.sub_self, List.replicate_zero, List.append_nil]
  rw [bitsToNat_natToBits_of_lt (by norm_num; omega)]

theorem bitsToBytes_bytesToBits (bytes : List Nat) (h : ∀ b ∈ bytes, b < 256) :
    bitsToBytes (bytesToBits bytes) = bytes := by
  induction bytes with
  | nil => rw [bytesToBits, List.flatMap_nil, bitsToBytes.eq_def, if_pos rfl]
  | cons b rest ih =>
    rw [bytesToBits, List.flatMap_cons, bitsToBytes_byte b _ (h b (by simp))]
    have ih' := ih (fun x hx => h x (by simp [hx]))
    rw [bytesToBits] at ih'
    rw [ih']

/-- The error taxonomy of the codec layer.  The Python source signals
`ValueError` for an unsupported method, an unsupported character and an
invalid decoded code; the missing-tree condition is the `TypeError`
raised when the facade calls `HuffmanCompressor.decompress` without the
required tree argument, and `decodeError` stands for the
`IndexError`/`TypeError`/`UnicodeDecodeError` family that invalid binary
input can raise during decompression. -/
inductive CodecError where
  | unsupportedMethod
  | unsupportedSymbol
  | invalidSymbolCode
  | missingTree
  | decodeError
  deriving DecidableEq, Repr

/-! ### UTF-8 (model of Python `str.encode('utf-8')` / `bytes.decode('utf-8')`). -/

/-- UTF-8 bytes of one code point (standard 1-4 byte encoding). -/
def utf8EncodeChar (c : Nat) : List Nat :=
  if c < 0x80 then [c]
  else if c < 0x800 then [0xC0 + c / 64, 0x80 + c % 64]
  else if c < 0x10000 then [0xE0 + c / 4096, 0x80 + c / 64 % 64, 0x80 + c % 64]
  else [0xF0 + c / 262144, 0x80 + c / 4096 % 64, 0x80 + c / 64 % 64, 0x80 + c % 64]

/-- Model of `text.encode('utf-8')` on a Python `str`. -/
def utf8Encode (text : List Char) : List Nat :=
  text.flatMap (fun c => utf8EncodeChar c.toNat)

/-- Whether a byte is a UTF-8 continuation byte `0b10xxxxxx`. -/
def isCont (b : Nat) : Prop := 0x80 ≤ b ∧ b < 0xC0

instance (b : Nat) : Decidable (isCont b) := by
  unfold isCont
  infer_instance

/-- The code point of a two-byte UTF-8 sequence. -/
def utf8Val2 (b b1 : Nat) : Nat := (b - 0xC0) * 64 + (b1 - 0x80)

/-- The code point of a three-byte UTF-8 sequence. -/
def utf8Val3 (b b1 b2 : Nat) : Nat := (b - 0xE0) * 4096 + (b1 - 0x80) * 64 + (b2 - 0x80)

/-- The code point of a four-byte UTF-8 sequence. -/
def utf8Val4 (b b1 b2 b3 : Nat) : Nat :=
  (b - 0xF0) * 262144 + (b1 - 0x80) * 4096 + (b2 - 0x80) * 64 + (b3 - 0x80)

/-- Parse one UTF-8 encoded code point off the front of a byte string,
returning it with the remaining bytes; `none` on a malformed sequence
(overlong forms, surrogates and out-of-range values rejected). -/
def utf8DecodeOne : List Nat → Option (Nat × List Nat)
  | [] => none
  | b :: rest =>
    if b < 0x80 then some (b, rest)
    else if b < 0xC2 then none
    else if b < 0xE0 then
      if 1 ≤ rest.length then
        if isCont (rest.getD 0 0) then some (utf8Val2 b (rest.getD 0 0), rest.drop 1)
        else none
      else none
    else if b < 0xF0 then
      if 2 ≤ rest.length then
        if isCont (rest.getD 0 0) ∧ isCont (rest.getD 1 0) then
          if utf8Val3 b (rest.getD 0 0) (rest.getD 1 0) < 0x800 ∨
              (0xD800 ≤ utf8Val3 b (rest.getD 0 0) (rest.getD 1 0) ∧
                utf8Val3 b (rest.getD 0 0) (rest.getD 1 0) < 0xE000) then none
          else some (utf8Val3 b (rest.getD 0 0) (rest.getD 1 0), rest.drop 2)
        else none
      else none
    else if b < 0xF5 then
      if 3 ≤ rest.length then
        if isCont (rest.getD 0 0) ∧ isCont (rest.getD 1 0) ∧ isCont (rest.getD 2 0) then
          if utf8Val4 b (rest.getD 0 0) (rest.getD 1 0) (rest.getD 2 0) < 0x10000 ∨
              0x110000 ≤ utf8Val4 b (rest.getD 0 0) (rest.getD 1 0) (rest.getD 2 0) then none
          else some (utf8Val4 b (rest.getD 0 0) (rest.getD 1 0) (rest.getD 2 0), rest.drop 3)
        else none
      else none
    else none

theorem utf8DecodeOne_length {l : List Nat} {c : Nat} {rest : List Nat}
    (h : utf8DecodeOne l = some (c, rest)) : rest.length < l.length := by
  match l with
  | [] => simp [utf8DecodeOne] at h
  | b :: r =>
    rw [utf8DecodeOne] at h
    repeat' split at h
    all_goals
      first
      | exact Option.noConfusion h
      | · rw [Option.some.injEq, Prod.mk.injEq] at h
          obtain ⟨h1, h2⟩ := h
          subst h2
          simp only [List.length_drop, List.length_cons]
          omega

/-- Model of `bytes.decode('utf-8')`: parse a byte string as UTF-8, `none` on any
malformed sequence (Python raises `UnicodeDecodeError`). -/
def utf8Decode (bytes : List Nat) : Option (List Char) :=
  if bytes = [] then some []
  else
    match h : utf8DecodeOne bytes with
    | some (c, rest) => (utf8Decode rest).map (fun cs => Char.ofNat c :: cs)
    | none => none
termination_by bytes.length
decreasing_by
  exact utf8DecodeOne_length h

theorem utf8Encode_byte_lt (text : List Char) : ∀ b ∈ utf8Encode text, b < 256 := by
  intro b hb
  rw [utf8Encode, List.mem_flatMap] at hb
  obtain ⟨c, _, hbc⟩ := hb
  have hval : c.toNat < 1114112 := by
    have h : c.val.toNat < 55296 ∨ (57344 ≤ c.val.toNat ∧ c.val.toNat < 1114112) := c.valid
    have he : c.toNat = c.val.toNat := rfl
    omega
  rw [utf8EncodeChar] at hbc
  split at hbc
  · simp at hbc; omega
  · split at hbc
    · simp at hbc; rcases hbc with h | h <;> omega
    · split at hbc
      · simp at hbc
        rcases hbc with h | h | h <;> omega
      · simp at hbc
        rcases hbc with h | h | h | h <;> omega

theorem utf8Encode_ascii (text : List Char) (h : ∀ c ∈ text, c.toNat < 128) :
    utf8Encode text = text.map Char.toNat := by
  induction text with
  | nil => rfl
  | cons c cs ih =>
    rw [utf8Encode, List.flatMap_cons, utf8EncodeChar, if_pos (h c (by simp)), List.map_cons]
    have ih' := ih (fun x hx => h x (by simp [hx]))
    rw [utf8Encode] at ih'
    rw [ih']
    rfl

theorem utf8Decode_cons_ascii {b : Nat} (rest : List Nat) (hb : b < 128) :
    utf8Decode (b :: rest) = (utf8Decode rest).map (fun cs => Char.ofNat b :: cs) := by
  have hone : utf8DecodeOne (b :: rest) = some (b, rest) := by
    rw [utf8DecodeOne, if_pos hb]
  rw [utf8Decode.eq_def, if_neg (List.cons_ne_nil b rest)]
  split
  · rename_i c r heq
    rw [hone] at heq
    injection heq with heq
    injection heq with h1 h2
    rw [h1, h2]
  · rename_i heq
    rw [hone] at heq
    simp at heq

theorem utf8Decode_nil : utf8Decode [] = some [] := by
  rw [utf8Decode.eq_def, if_pos rfl]

theorem utf8Decode_utf8Encode_ascii (text : List Char) (h : ∀ c ∈ text, c.toNat < 128) :
    utf8Decode (utf8Encode text) = some text := by
  induction text with
  | nil => exact utf8Decode_nil
  | cons c cs ih =>
    rw [utf8Encode, List.flatMap_cons, utf8EncodeChar, if_pos (h c (by simp))]
    have ih' := ih (fun x hx => h x (by simp [hx]))
    rw [utf8Encode] at ih'
    show utf8Decode (c.toNat :: _) = _
    rw [utf8Decode_cons_ascii _ (h c (by simp))]
    show Option.map _ (utf8Decode (cs.flatMap fun c => utf8EncodeChar c.toNat)) = _
    rw [ih', Option.map_some', Char.ofNat_toNat]

/-! ### Fixed-width codecs (`six_bit_compressor.py`, `seven_bit_compressor.py`). -/

/-- The table `SixBitCompressor.CHARSET`, the class-level character table
`"abcdefghijklmnopqrstuvwxyz" "0123456789 .,?!-_:;'\"()[]{}@#$%^&*~\n"`
(special characters written with escapes). -/
def SIX_BIT_CHARSET : List Char :=
  ("abcdefghijklmnopqrstuvwxyz" ++
    "0123456789 .,?!-_:;\x27\x22()[]\x7b\x7d@#$%^&*~\n").toList

/-- The table `SevenBitCompressor.CHARSET`, the class-level character table
(upper case, lower case, digits and punctuation including the copyright
and registered signs). -/
def SEVEN_BIT_CHARSET : List Char :=
  ("ABCDEFGHIJKLMNOPQRSTUVWXYZ" ++ "abcdefghijklmnopqrstuvwxyz" ++
    "0123456789 .,?!-_():;\x27\x22@#$%^&*+=~©®\n").toList

/-- Index of a character in a charset; models the `ENCODE_MAP`
dictionary `{char: idx for idx, char in enumerate(CHARSET)}` (`none`
when the character is absent, in which case the source raises
`ValueError`). -/
def charIndex : List Char → Char → Option Nat
  | [], _ => none
  | x :: xs, c => if x = c then some 0 else (charIndex xs c).map (· + 1)

/-- Python `format(n, "0wb")`: the binary digits of `n`, zero-padded on
the left to at least `w` digits (longer when `n` needs more digits,
which the codecs never do since every code is below `2^w`). -/
def format0b (w n : Nat) : List Bool :=
  if n < 2 ^ w then natToBits w n else natToBits (Nat.log2 n + 1) n

/-- Model of `SixBitCompressor.compress`: lower-case each character (Python
`char.lower()`, which agrees with `Char.toLower` on the ASCII inputs the
codec accepts), look it up in `ENCODE_MAP` and append its 6-bit code;
an unmapped character raises `ValueError("Unsupported character")`. -/
def sixBitCompress : List Char → Except CodecError (List Bool)
  | [] => .ok []
  | c :: cs =>
    match charIndex SIX_BIT_CHARSET c.toLower with
    | none => .error .unsupportedSymbol
    | some idx =>
      match sixBitCompress cs with
      | .ok bits => .ok (format0b 6 idx ++ bits)
      | .error e => .error e

/-- Model of `SevenBitCompressor.compress`: identical except for the 7-bit width
and no case folding. -/
def sevenBitCompress : List Char → Except CodecError (List Bool)
  | [] => .ok []
  | c :: cs =>
    match charIndex SEVEN_BIT_CHARSET c with
    | none => .error .unsupportedSymbol
    | some idx =>
      match sevenBitCompress cs with
      | .ok bits => .ok (format0b 7 idx ++ bits)
      | .error e => .error e

/-- The loop of `SixBitCompressor.decompress`: `for i in range(0, len, 6)`
reads `compressed[i:i+6]` (a slice that is shorter than 6 bits on a
trailing partial chunk), interprets it as a big-endian integer and maps
it through `DECODE_MAP`; an unmapped code raises
`ValueError("Invalid character code")`.  `fuel` only drives the
recursion; it is instantiated with `bits.length`, which bounds the
number of loop iterations. -/
def sixBitDecompressFuel : Nat → List Bool → Except CodecError (List Char)
  | 0, _ => .ok []
  | fuel + 1, bits =>
    match bits with
    | [] => .ok []
    | _ :: _ =>
      match SIX_BIT_CHARSET.get? (bitsToNat (bits.take 6)) with
      | none => .error .invalidSymbolCode
      | some ch =>
        match sixBitDecompressFuel fuel (bits.drop 6) with
        | .ok cs => .ok (ch :: cs)
        | .error e => .error e

/-- Model of `SixBitCompressor.decompress`. -/
def sixBitDecompress (bits : List Bool) : Except CodecError (List Char) :=
  sixBitDecompressFuel bits.length bits

/-- The loop of `SevenBitCompressor.decompress` (7-bit chunks). -/
def sevenBitDecompressFuel : Nat → List Bool → Except CodecError (List Char)
  | 0, _ => .ok []
  | fuel + 1, bits =>
    match bits with
    | [] => .ok []
    | _ :: _ =>
      match SEVEN_BIT_CHARSET.get? (bitsToNat (bits.take 7)) with
      | none => .error .invalidSymbolCode
      | some ch =>
        match sevenBitDecompressFuel fuel (bits.drop 7) with
        | .ok cs => .ok (ch :: cs)
        | .error e => .error e

/-- Model of `SevenBitCompressor.decompress`. -/
def sevenBitDecompress (bits : List Bool) : Except CodecError (List Char) :=
  sevenBitDecompressFuel bits.length bits

theorem charIndex_lt {l : List Char} {c : Char} {i : Nat} (h : charIndex l c = some i) :
    i < l.length := by
  induction l generalizing i with
  | nil => simp [charIndex] at h
  | cons x xs ih =>
    rw [charIndex] at h
    split at h
    · injection h with h
      simp [← h]
    · match hx : charIndex xs c with
      | none => rw [hx] at h; simp at h
      | some j =>
        rw [hx] at h
        injection h with h
        have := ih hx
        simp [← h]
        omega

theorem charIndex_get {l : List Char} {c : Char} {i : Nat} (h : charIndex l c = some i) :
    l.get? i = some c := by
  induction l generalizing i with
  | nil => simp [charIndex] at h
  | cons x xs ih =>
    rw [charIndex] at h
    split at h
    · rename_i hx
      injection h with h
      rw [← h, hx]
      rfl
    · match hx : charIndex xs c with
      | none => rw [hx] at h; simp at h
      | some j =>
        rw [hx] at h
        injection h with h
        rw [← h]
        simpa using ih hx

theorem charIndex_isSome_of_mem {l : List Char} {c : Char} (h : c ∈ l) :
    ∃ i, charIndex l c = some i := by
  induction l with
  | nil => simp at h
  | cons x xs ih =>
    rw [charIndex]
    by_cases hx : x = c
    · exact ⟨0, by rw [if_pos hx]⟩
    · have hm : c ∈ xs := by
        rcases List.mem_cons.mp h with h1 | h1
        · exact absurd h1.symm hx
        · exact h1
      obtain ⟨j, hj⟩ := ih hm
      exact ⟨j + 1, by rw [if_neg hx, hj]; rfl⟩

theorem SIX_BIT_CHARSET_length : SIX_BIT_CHARSET.length = 62 := by decide

theorem SEVEN_BIT_CHARSET_length : SEVEN_BIT_CHARSET.length = 88 := by decide

theorem sixBitDecompressFuel_nil (fuel : Nat) :
    sixBitDecompressFuel fuel [] = .ok [] := by
  cases fuel <;> rfl

theorem sixBitRoundTripAux (text : List Char)
    (h : ∀ c ∈ text, c.toLower ∈ SIX_BIT_CHARSET) :
    ∃ bits, sixBitCompress text = .ok bits ∧ bits.length = 6 * text.length ∧
      ∀ fuel, bits.length ≤ fuel →
        sixBitDecompressFuel fuel bits = .ok (text.map Char.toLower) := by
  induction text with
  | nil =>
    exact ⟨[], rfl, by simp, fun fuel _ => sixBitDecompressFuel_nil fuel⟩
  | cons c cs ih =>
    obtain ⟨idx, hidx⟩ := charIndex_isSome_of_mem (h c (by simp))
    have hlt : idx < 62 := SIX_BIT_CHARSET_length ▸ charIndex_lt hidx
    obtain ⟨bits, hc, hlen, hd⟩ := ih (fun x hx => h x (by simp [hx]))
    have hfmt : format0b 6 idx = natToBits 6 idx := by
      rw [format0b, if_pos (by norm_num; omega)]
    refine ⟨natToBits 6 idx ++ bits, ?_, ?_, ?_⟩
    · rw [sixBitCompress, hidx, hc]
      show Except.ok (format0b 6 idx ++ bits) = _
      rw [hfmt]
    · simp [natToBits_length, hlen, Nat.mul_succ]
      omega
    · intro fuel hfuel
      have hlen6 : (natToBits 6 idx).length = 6 := natToBits_length 6 idx
      have hlenall : (natToBits 6 idx ++ bits).length = 6 + bits.length := by
        simp [hlen6]
      match fuel, (by omega : 1 ≤ fuel) with
      | f + 1, _ =>
        obtain ⟨hd1, tl1, hsh⟩ :
            ∃ hd1 tl1, natToBits 6 idx ++ bits = hd1 :: tl1 := by
          match hx : natToBits 6 idx ++ bits with
          | [] =>
            rw [hx] at hlenall
            simp only [List.length_nil] at hlenall
            exact absurd hlenall (by omega)
          | y :: ys => exact ⟨y, ys, rfl⟩
        rw [hsh, sixBitDecompressFuel]
        have htake : (hd1 :: tl1).take 6 = natToBits 6 idx := by
          rw [← hsh, List.take_append_of_le_length (by omega),
            List.take_of_length_le (by omega)]
        have hdrop : (hd1 :: tl1).drop 6 = bits := by
          rw [← hsh, List.drop_append_of_le_length (by omega),
            List.drop_of_length_le (by omega)]
          simp
        rw [htake, hdrop, bitsToNat_natToBits_of_lt (by norm_num; omega)]
        rw [show SIX_BIT_CHARSET.get? idx = some c.toLower from charIndex_get hidx]
        rw [hd f (by omega)]
        rfl

theorem sevenBitDecompressFuel_nil (fuel : Nat) :
    sevenBitDecompressFuel fuel [] = .ok [] := by
  cases fuel <;> rfl

theorem sevenBitRoundTripAux (text : List Char)
    (h : ∀ c ∈ text, c ∈ SEVEN_BIT_CHARSET) :
    ∃ bits, sevenBitCompress text = .ok bits ∧ bits.length = 7 * text.length ∧
      ∀ fuel, bits.length ≤ fuel →
        sevenBitDecompressFuel fuel bits = .ok text := by
  induction text with
  | nil =>
    exact ⟨[], rfl, by simp, fun fuel _ => sevenBitDecompressFuel_nil fuel⟩
  | cons c cs ih =>
    obtain ⟨idx, hidx⟩ := charIndex_isSome_of_mem (h c (by simp))
    have hlt : idx < 88 := SEVEN_BIT_CHARSET_length ▸ charIndex_lt hidx
    obtain ⟨bits, hc, hlen, hd⟩ := ih (fun x hx => h x (by simp [hx]))
    have hfmt : format0b 7 idx = natToBits 7 idx := by
      rw [format0b, if_pos (by norm_num; omega)]
    refine ⟨natToBits 7 idx ++ bits, ?_, ?_, ?_⟩
    · rw [sevenBitCompress, hidx, hc]
      show Except.ok (format0b 7 idx ++ bits) = _
      rw [hfmt]
    · simp [natToBits_length, hlen, Nat.mul_succ]
      omega
    · intro fuel hfuel
      have hlen7 : (natToBits 7 idx).length = 7 := natToBits_length 7 idx
      have hlenall : (natToBits 7 idx ++ bits).length = 7 + bits.length := by
        simp [hlen7]
      match fuel, (by omega : 1 ≤ fuel) with
      | f + 1, _ =>
        obtain ⟨hd1, tl1, hsh⟩ :
            ∃ hd1 tl1, natToBits 7 idx ++ bits = hd1 :: tl1 := by
          match hx : natToBits 7 idx ++ bits with
          | [] =>
            rw [hx] at hlenall
            simp only [List.length_nil] at hlenall
            exact absurd hlenall (by omega)
          | y :: ys => exact ⟨y, ys, rfl⟩
        rw [hsh, sevenBitDecompressFuel]
        have htake : (hd1 :: tl1).take 7 = natToBits 7 idx := by
          rw [← hsh, List.take_append_of_le_length (by omega),
            List.take_of_length_le (by omega)]
        have hdrop : (hd1 :: tl1).drop 7 = bits := by
          rw [← hsh, List.drop_append_of_le_length (by omega),
            List.drop_of_length_le (by omega)]
          simp
        rw [htake, hdrop, bitsToNat_natToBits_of_lt (by norm_num; omega)]
        rw [show SEVEN_BIT_CHARSET.get? idx = some c from charIndex_get hidx]
        rw [hd f (by omega)]

/-! ### Huffman (`huffman.py`).

`build_tree` manipulates heap entries of the Python shape
`[weight, [char, code], [char, code], ...]`, modelled as
`HuffNode = weight × list of (char, code)` where a code is a string of
`'0'`/`'1'` characters.  The `heapq` functions are embedded faithfully,
including the fact that `build_tree` seeds the heap with a plain list
comprehension and never calls `heapify`, so the initial list need not
satisfy the heap invariant.  Loops run on explicit fuel: each fuel
argument is instantiated with a bound (derived below from the loop
variable) that the Python loop never exceeds. -/

/-- One `[char, code]` pair inside a heap entry. -/
abbrev HuffPair := Char × List Char

/-- One heap entry `[weight, pair, pair, ...]`. -/
abbrev HuffNode := Nat × List HuffPair

/-- Python `<` on strings (code point lexicographic). -/
def charListLt : List Char → List Char → Bool
  | _, [] => false
  | [], _ :: _ => true
  | a :: as, b :: bs =>
    if a.toNat < b.toNat then true
    else if b.toNat < a.toNat then false
    else charListLt as bs

/-- Python `<` on `[char, code]` lists (elementwise, both length 2). -/
def huffPairLt (p q : HuffPair) : Bool :=
  if p.1.toNat < q.1.toNat then true
  else if q.1.toNat < p.1.toNat then false
  else charListLt p.2 q.2

/-- Python `<` on lists of pairs (lexicographic, shorter prefix first). -/
def huffPairListLt : List HuffPair → List HuffPair → Bool
  | _, [] => false
  | [], _ :: _ => true
  | p :: ps, q :: qs =>
    if huffPairLt p q then true
    else if huffPairLt q p then false
    else huffPairListLt ps qs

/-- Python `<` on heap entries: weight first, then the pair list. -/
def huffNodeLt (a b : HuffNode) : Bool :=
  if a.1 < b.1 then true
  else if b.1 < a.1 then false
  else huffPairListLt a.2 b.2

/-- Read `heap[i]` with a junk default (all accesses are in range). -/
def hpGet (heap : List HuffNode) (i : Nat) : HuffNode :=
  heap.getD i (0, [])

/-- Model of `heapq._siftdown(heap, startpos, pos)` with `newitem = heap[pos]`
already read; `pos` strictly decreases, so `fuel = pos` suffices. -/
def siftdownLoop : Nat → List HuffNode → Nat → Nat → HuffNode → List HuffNode
  | 0, heap, _, pos, newitem => heap.set pos newitem
  | fuel + 1, heap, startpos, pos, newitem =>
    if startpos < pos then
      let parentpos := (pos - 1) / 2
      let parent := hpGet heap parentpos
      if huffNodeLt newitem parent then
        siftdownLoop fuel (heap.set pos parent) startpos parentpos newitem
      else heap.set pos newitem
    else heap.set pos newitem

/-- Model of `heapq._siftup(heap, pos)`: walk a smallest-child path down to a
leaf, then restore with `_siftdown`; `pos` strictly increases below
`len(heap)`, so `fuel = heap.length` suffices. -/
def siftupLoop : Nat → List HuffNode → Nat → Nat → HuffNode → List HuffNode
  | 0, heap, startpos, pos, newitem =>
    siftdownLoop pos (heap.set pos newitem) startpos pos newitem
  | fuel + 1, heap, startpos, pos, newitem =>
    let endpos := heap.length
    let childpos := 2 * pos + 1
    if childpos < endpos then
      let rightpos := childpos + 1
      let childpos :=
        if rightpos < endpos ∧ ¬ huffNodeLt (hpGet heap childpos) (hpGet heap rightpos) then
          rightpos
        else childpos
      siftupLoop fuel (heap.set pos (hpGet heap childpos)) startpos childpos newitem
    else
      siftdownLoop pos (heap.set pos newitem) startpos pos newitem

/-- Model of `heapq.heappush(heap, item)`: append, then sift down from the new
last slot. -/
def heappush (heap : List HuffNode) (item : HuffNode) : List HuffNode :=
  siftdownLoop heap.length (heap ++ [item]) 0 heap.length item

/-- Model of `heapq.heappop(heap)`: pop the last element; if entries remain,
return the root, move the popped element to the root and sift up.
`none` models the `IndexError` on an empty heap. -/
def heappop (heap : List HuffNode) : Option (HuffNode × List HuffNode) :=
  match heap.getLast? with
  | none => none
  | some lastelt =>
    let rest := heap.dropLast
    if rest.isEmpty then some (lastelt, rest)
    else some (hpGet rest 0, siftupLoop rest.length (rest.set 0 lastelt) 0 0 lastelt)

/-- One `freq[char] += 1` (or first insertion with count 1); preserves
the first-occurrence key order of a Python `Counter`/`dict`. -/
def counterAdd : List (Char × Nat) → Char → List (Char × Nat)
  | [], c => [(c, 1)]
  | (a, n) :: rest, c =>
    if a = c then (a, n + 1) :: rest else (a, n) :: counterAdd rest c

/-- Model of `Counter(text)`. -/
def pyCounter (text : List Char) : List (Char × Nat) :=
  text.foldl counterAdd []

/-- The frequency table of `build_tree`: `Counter(text)` followed by the
redundant `for char in text: freq[char] += 1` loop, which doubles every
count. -/
def huffmanFreq (text : List Char) : List (Char × Nat) :=
  text.foldl counterAdd (pyCounter text)

/-- The `while len(heap) > 1` merge loop of `build_tree`: pop the two
entries `heapq` yields, prepend `'0'` to every code of the first and
`'1'` to every code of the second, push the merged entry.  Each
iteration shrinks the heap by one, so `fuel = heap.length` suffices. -/
def huffmanHeapLoop : Nat → List HuffNode → List HuffNode
  | 0, heap => heap
  | fuel + 1, heap =>
    if 1 < heap.length then
      match heappop heap with
      | some (low, heap1) =>
        match heappop heap1 with
        | some (high, heap2) =>
          huffmanHeapLoop fuel (heappush heap2
            (low.1 + high.1,
              low.2.map (fun p => (p.1, '0' :: p.2)) ++
                high.2.map (fun p => (p.1, '1' :: p.2))))
        | none => heap1
      | none => heap
    else heap

/-- Model of `HuffmanCompressor.build_tree`: the final `dict(heappop(heap)[1:])`
with every code string converted to a bitarray (`'1'` becomes a one
bit).  `none` models the `IndexError` a heappop on an empty heap (empty
input text) raises. -/
def buildTree (text : List Char) : Option (List (Char × List Bool)) :=
  let freq := huffmanFreq text
  let heap : List HuffNode := freq.map (fun p => (p.2, [(p.1, ([] : List Char))]))
  match heappop (huffmanHeapLoop heap.length heap) with
  | some (top, _) => some (top.2.map (fun p => (p.1, p.2.map (fun ch => ch == '1'))))
  | none => none

/-- Dictionary lookup in the produced tree (keys are distinct). -/
def treeLookup (tree : List (Char × List Bool)) (c : Char) : Option (List Bool) :=
  (tree.find? (fun p => p.1 == c)).map Prod.snd

/-- Model of `bitarray.encode(tree, text)`: concatenate the per-character codes;
`none` models the error raised for a symbol missing from the code
dictionary. -/
def huffmanEncodeBits (tree : List (Char × List Bool)) : List Char → Option (List Bool)
  | [] => some []
  | c :: cs =>
    match treeLookup tree c with
    | none => none
    | some code => (huffmanEncodeBits tree cs).map (fun bits => code ++ bits)

/-- Model of `HuffmanCompressor.compress`: build the tree, then encode.  The
tree itself is *not* part of the return value. -/
def huffmanCompress (text : List Char) : Option (List Bool) :=
  match buildTree text with
  | some tree => huffmanEncodeBits tree text
  | none => none

/-- Lookup in `reverse_tree = {v.to01(): k for k, v in tree.items()}`;
on duplicate codes the later entry wins, hence the reversed search. -/
def reverseLookup (tree : List (Char × List Bool)) (buffer : List Bool) : Option Char :=
  (tree.reverse.find? (fun p => p.2 == buffer)).map Prod.fst

/-- One iteration of the `for bit in compressed.to01()` loop of
`HuffmanCompressor.decompress`: extend the buffer, emit a character and
clear the buffer when the buffer matches a code. -/
def huffmanDecompressStep (tree : List (Char × List Bool))
    (st : List Char × List Bool) (bit : Bool) : List Char × List Bool :=
  let buffer := st.2 ++ [bit]
  match reverseLookup tree buffer with
  | some ch => (st.1 ++ [ch], [])
  | none => (st.1, buffer)

/-- The full decompress loop state: decoded characters and the
leftover buffer when the bit stream is exhausted. -/
def huffmanDecompressFull (tree : List (Char × List Bool)) (bits : List Bool) :
    List Char × List Bool :=
  bits.foldl (huffmanDecompressStep tree) ([], [])

/-- Model of `HuffmanCompressor.decompress`: returns the decoded text and
silently discards whatever is left in the buffer. -/
def huffmanDecompress (tree : List (Char × List Bool)) (bits : List Bool) : List Char :=
  (huffmanDecompressFull tree bits).1

/-! ### LZ77 (`LZ77.py`). -/

/-- Python slice `data[a:b]` (with `0 ≤ a ≤ b` as used in the source;
out-of-range bounds clamp). -/
def pySlice (data : List Nat) (a b : Nat) : List Nat :=
  (data.drop a).take (b - a)

/-- Python list repetition `s * n`. -/
def listRepeat (s : List Nat) : Nat → List Nat
  | 0 => []
  | n + 1 => s ++ listRepeat s n

/-- The condition `len(substring) > best_match_length` where
`best_match_length` starts at `-1` (so any length beats an empty
best). -/
def flmBetter (best : Option (Nat × Nat)) (len : Nat) : Bool :=
  match best with
  | none => true
  | some (_, bl) => bl < len

/-- The tiled-comparison condition of the inner loop body at window
start `i`: with `repetitions = len(substring) // (pos - i)` and
`last = len(substring) % (pos - i)`, whether
`data[i:pos] * repetitions + data[i:i+last] == substring`
(the self-overlap trick). -/
def matchedAt (data : List Nat) (pos : Nat) (substring : List Nat) (i : Nat) : Prop :=
  listRepeat (pySlice data i pos) (substring.length / (pos - i)) ++
    pySlice data i (i + substring.length % (pos - i)) = substring

instance (data : List Nat) (pos : Nat) (substring : List Nat) (i : Nat) :
    Decidable (matchedAt data pos substring i) := by
  unfold matchedAt
  infer_instance

/-- The inner `for i in range(start_index, current_position)` loop of
`findLongestMatch`: record `(distance, length)` whenever the tiled
comparison succeeds and the match is strictly longer than the best so
far. -/
def flmInner (data : List Nat) (pos : Nat) (substring : List Nat) :
    List Nat → Option (Nat × Nat) → Option (Nat × Nat)
  | [], best => best
  | i :: is, best =>
    flmInner data pos substring is
      (if matchedAt data pos substring i ∧ flmBetter best substring.length then
        some (pos - i, substring.length)
      else best)

/-- The outer `for j in range(current_position + 2, end_of_buffer)`
loop; `start_index = max(0, current_position - window_size)` is
truncated natural subtraction. -/
def flmOuter (w : Nat) (data : List Nat) (pos : Nat) :
    List Nat → Option (Nat × Nat) → Option (Nat × Nat)
  | [], best => best
  | j :: js, best =>
    let start := pos - w
    flmOuter w data pos js
      (flmInner data pos (pySlice data pos j) (List.range' start (pos - start)) best)

/-- Model of `LZ77Compressor.findLongestMatch(data, current_position)` for a
compressor whose `window_size` is `w` (`lookahead_buffer_size` is the
fixed 15).  Returns `(distance, length)` or `none`. -/
def findLongestMatch (w : Nat) (data : List Nat) (pos : Nat) : Option (Nat × Nat) :=
  let eob := min (pos + 15) (data.length + 1)
  match flmOuter w data pos (List.range' (pos + 2) (eob - (pos + 2))) none with
  | some (d, l) => if 0 < d ∧ 0 < l then some (d, l) else none
  | none => none

/-- A token of the LZ77 wire format: a literal byte (flag 0) or a
match given by distance and length (flag 1). -/
inductive LZToken where
  | lit (b : Nat)
  | mtch (dist len : Nat)
  deriving DecidableEq, Repr

/-- The `while i < len(data)` loop of `compress_data` as a token list:
emit a match and advance by its length, or emit a literal and advance
by one.  Every match has positive length (enforced by the final guard
of `findLongestMatch`), so `fuel = data.length` covers the loop. -/
def lz77CompressFuel (w : Nat) (data : List Nat) : Nat → Nat → List LZToken
  | _, 0 => []
  | i, fuel + 1 =>
    if i < data.length then
      match findLongestMatch w data i with
      | some (d, l) => .mtch d l :: lz77CompressFuel w data (i + l) fuel
      | none => .lit (data.getD i 0) :: lz77CompressFuel w data (i + 1) fuel
    else []

/-- The token stream `compress_data` produces on a byte string. -/
def lz77CompressTokens (w : Nat) (data : List Nat) : List LZToken :=
  lz77CompressFuel w data 0 data.length

/-- The same loop, recording the position at which each token is
emitted (for stating the per-position invariants). -/
def lz77EmissionsFuel (w : Nat) (data : List Nat) : Nat → Nat → List (Nat × LZToken)
  | _, 0 => []
  | i, fuel + 1 =>
    if i < data.length then
      match findLongestMatch w data i with
      | some (d, l) => (i, .mtch d l) :: lz77EmissionsFuel w data (i + l) fuel
      | none => (i, .lit (data.getD i 0)) :: lz77EmissionsFuel w data (i + 1) fuel
    else []

/-- Position-annotated token stream of `compress_data`. -/
def lz77Emissions (w : Nat) (data : List Nat) : List (Nat × LZToken) :=
  lz77EmissionsFuel w data 0 data.length

/-- The bits `compress_data` appends for one token: `0` plus one byte
for a literal; `1`, then `bytes([distance >> 4])`, then
`bytes([((distance & 0xf) << 4) | length])` for a match. -/
def serializeToken : LZToken → List Bool
  | .lit b => false :: natToBits 8 b
  | .mtch d l => true :: (natToBits 8 (d / 16) ++ natToBits 8 ((d % 16) * 16 + l))

/-- Model of `LZ77Compressor.compress_data(text)`: encode the text as UTF-8,
run the token loop with the clamped window `min(window_size, 400)` of
`__init__`, serialize and pad to a byte boundary (`fill`). -/
def lz77CompressData (w : Nat) (text : List Char) : List Bool :=
  fillBits ((lz77CompressTokens (min w 400) (utf8Encode text)).flatMap serializeToken)

/-- Python `out[-dist]` on the output buffer: index `len - dist` when
`dist > 0`, index `0` when `dist = 0`; `none` models the `IndexError`
on an out-of-range back-reference. -/
def pyNegIndex (out : List Nat) (dist : Nat) : Option Nat :=
  if dist = 0 then out.get? 0
  else if dist ≤ out.length then out.get? (out.length - dist) else none

/-- The `for _ in range(length): output_buffer.append(output_buffer[-distance])`
copy loop of `decompress` (reads bytes it may itself have appended,
reproducing self-overlapping matches). -/
def lz77CopyLoop (out : List Nat) (dist : Nat) : Nat → Option (List Nat)
  | 0 => some out
  | n + 1 =>
    match pyNegIndex out dist with
    | some b => lz77CopyLoop (out ++ [b]) dist n
    | none => none

/-- Model of `ord(slice.tobytes())` on a bit slice of at most 8 bits:
zero-pad to a byte; `none` models the `TypeError` on an empty slice. -/
def bytePad (l : List Bool) : Option Nat :=
  if l = [] then none
  else some (bitsToNat (l ++ List.replicate (8 - l.length) false))

/-- The `while len(data) >= 9` loop of `LZ77Compressor.decompress`:
pop the flag; on 0 consume 8 bits as a literal byte, on 1 consume 16
bits, decode `distance = (byte1 << 4) | (byte2 >> 4)` and
`length = byte2 & 0xf` and run the copy loop.  Returns the byte
buffer. -/
def lz77DecompressLoop (bits : List Bool) (out : List Nat) : Option (List Nat) :=
  if 9 ≤ bits.length then
    match bits with
    | [] => none
    | flag :: rest =>
      if flag then
        match bytePad (rest.take 8), bytePad ((rest.drop 8).take 8) with
        | some byte1, some byte2 =>
          match lz77CopyLoop out (byte1 * 16 + byte2 / 16) (byte2 % 16) with
          | some out2 => lz77DecompressLoop (rest.drop 16) out2
          | none => none
        | _, _ => none
      else
        lz77DecompressLoop (rest.drop 8) (out ++ [bitsToNat (rest.take 8)])
  else some out
termination_by bits.length
decreasing_by
  · simp only [List.length_drop, List.length_cons]
    omega
  · simp only [List.length_drop, List.length_cons]
    omega

/-- Model of `LZ77Compressor.decompress`: run the loop on an empty output
buffer, then decode the assembled bytes as UTF-8. -/
def lz77Decompress (bits : List Bool) : Option (List Char) :=
  match lz77DecompressLoop bits [] with
  | some outBytes => utf8Decode outBytes
  | none => none

/-- A candidate match of `findLongestMatch` for window size `w`: a pair
of loop indices the double loop actually tests, together with the
tiled-comparison condition holding there (`L = j - pos`). -/
def lzCand (w : Nat) (data : List Nat) (pos i L : Nat) : Prop :=
  pos - w ≤ i ∧ i < pos ∧ 2 ≤ L ∧ L ≤ 14 ∧ pos + L ≤ data.length ∧
    matchedAt data pos (pySlice data pos (pos + L)) i

instance (w : Nat) (data : List Nat) (pos i L : Nat) : Decidable (lzCand w data pos i L) := by
  unfold lzCand
  infer_instance

theorem listRepeat_length (s : List Nat) (n : Nat) : (listRepeat s n).length = n * s.length := by
  induction n with
  | zero => simp [listRepeat]
  | succ k ih => simp [listRepeat, ih, Nat.succ_mul]; omega

theorem pySlice_length (data : List Nat) (a b : Nat) :
    (pySlice data a b).length = min (b - a) (data.length - a) := by
  simp [pySlice]

theorem pySlice_get (data : List Nat) (a b k : Nat) (h : k < b - a)
    (h2 : a + k < data.length) : (pySlice data a b).get? k = data.get? (a + k) := by
  rw [pySlice, List.get?_take h, List.get?_drop]

theorem tile_get (S : List Nat) (d reps last k : Nat) (hS : S.length = d)
    (hlast : last ≤ d) (hk : k < reps * d + last) :
    (listRepeat S reps ++ S.take last).get? k = S.get? (k % d) := by
  induction reps generalizing k with
  | zero =>
    simp only [Nat.zero_mul, Nat.zero_add] at hk
    have hd : 0 < d := by omega
    have hkd : k % d = k := Nat.mod_eq_of_lt (by omega)
    rw [listRepeat, List.nil_append, List.get?_take hk, hkd]
  | succ r ih =>
    rw [Nat.succ_mul] at hk
    rw [listRepeat, List.append_assoc]
    by_cases hkd : k < d
    · rw [List.get?_append (show k < S.length by omega), Nat.mod_eq_of_lt hkd]
    · rw [List.get?_append_right (show S.length ≤ k by omega), hS,
        ih (k - d) (by omega)]
      have hmod : k % d = (k - d) % d := by
        conv_lhs => rw [show k = (k - d) + d from by omega]
        rw [Nat.add_mod_right]
      rw [hmod]

theorem matchedAt_pointwise {data : List Nat} {pos i L : Nat}
    (hi : i < pos) (hlen : pos + L ≤ data.length)
    (hm : matchedAt data pos (pySlice data pos (pos + L)) i) :
    ∀ k < L, data.get? (pos + k) = data.get? (i + k % (pos - i)) := by
  intro k hk
  have hd : 0 < pos - i := by omega
  have hsublen : (pySlice data pos (pos + L)).length = L := by
    rw [pySlice_length]
    omega
  have hSlen : (pySlice data i pos).length = pos - i := by
    rw [pySlice_length]
    omega
  have hlast_lt : L % (pos - i) < pos - i := Nat.mod_lt _ hd
  have htail : pySlice data i (i + L % (pos - i)) =
      (pySlice data i pos).take (L % (pos - i)) := by
    simp only [pySlice, List.take_take]
    congr 1
    omega
  rw [matchedAt, hsublen, htail] at hm
  have hkrange : k < L / (pos - i) * (pos - i) + L % (pos - i) := by
    rw [Nat.mul_comm]
    have := Nat.div_add_mod L (pos - i)
    omega
  have hget := tile_get (pySlice data i pos) (pos - i) (L / (pos - i)) (L % (pos - i)) k
    hSlen (Nat.le_of_lt hlast_lt) hkrange
  rw [hm] at hget
  have hsubget : (pySlice data pos (pos + L)).get? k = data.get? (pos + k) :=
    pySlice_get data pos (pos + L) k (by omega) (by omega)
  have hSget : (pySlice data i pos).get? (k % (pos - i)) = data.get? (i + k % (pos - i)) := by
    refine pySlice_get data i pos (k % (pos - i)) (Nat.mod_lt _ hd) ?_
    have := Nat.mod_lt k hd
    omega
  rw [hsubget, hSget] at hget
  exact hget

theorem matchedAt_shift {data : List Nat} {pos i L : Nat}
    (hi : i < pos) (hlen : pos + L ≤ data.length)
    (hm : matchedAt data pos (pySlice data pos (pos + L)) i) :
    ∀ k < L, data.get? (pos + k) = data.get? (pos + k - (pos - i)) := by
  intro k hk
  have hp := matchedAt_pointwise hi hlen hm
  by_cases hkd : k < pos - i
  · rw [hp k hk]
    congr 1
    have hmk : k % (pos - i) = k := Nat.mod_eq_of_lt hkd
    omega
  · have h1 := hp k hk
    have h2 := hp (k - (pos - i)) (by omega)
    have hidx : pos + k - (pos - i) = pos + (k - (pos - i)) := by omega
    rw [h1, hidx, h2]
    congr 1
    have hmod : k % (pos - i) = (k - (pos - i)) % (pos - i) := by
      conv_lhs => rw [show k = (k - (pos - i)) + (pos - i) from by omega]
      rw [Nat.add_mod_right]
    rw [hmod]

theorem flmInner_provenance (data : List Nat) (pos : Nat) (substring : List Nat) :
    ∀ (is : List Nat) (best : Option (Nat × Nat)),
      flmInner data pos substring is best = best ∨
      ∃ i ∈ is, matchedAt data pos substring i ∧
        flmInner data pos substring is best = some (pos - i, substring.length)
  | [], best => Or.inl rfl
  | i :: is, best => by
    rw [flmInner]
    rcases flmInner_provenance data pos substring is
        (if matchedAt data pos substring i ∧ flmBetter best substring.length = true then
          some (pos - i, substring.length)
        else best) with h | ⟨i2, hi2, hm, heq⟩
    · rw [h]
      split
      · rename_i hc
        exact Or.inr ⟨i, by simp, hc.1, rfl⟩
      · exact Or.inl rfl
    · exact Or.inr ⟨i2, by simp [hi2], hm, heq⟩

theorem flmOuter_provenance (w : Nat) (data : List Nat) (pos : Nat) :
    ∀ (js : List Nat) (best : Option (Nat × Nat)),
      flmOuter w data pos js best = best ∨
      ∃ j ∈ js, ∃ i ∈ List.range' (pos - w) (pos - (pos - w)),
        matchedAt data pos (pySlice data pos j) i ∧
        flmOuter w data pos js best = some (pos - i, (pySlice data pos j).length)
  | [], best => Or.inl rfl
  | j :: js, best => by
    rw [flmOuter]
    rcases flmOuter_provenance w data pos js
        (flmInner data pos (pySlice data pos j)
          (List.range' (pos - w) (pos - (pos - w))) best) with h | ⟨j2, hj2, i2, hi2, hm, heq⟩
    · rw [h]
      rcases flmInner_provenance data pos (pySlice data pos j)
          (List.range' (pos - w) (pos - (pos - w))) best with hh | ⟨i, hi, hm, heq2⟩
      · rw [hh]
        exact Or.inl rfl
      · exact Or.inr ⟨j, by simp, i, hi, hm, heq2⟩
    · exact Or.inr ⟨j2, by simp [hj2], i2, hi2, hm, heq⟩

theorem findLongestMatch_cand {w : Nat} {data : List Nat} {pos d l : Nat}
    (h : findLongestMatch w data pos = some (d, l)) :
    lzCand w data pos (pos - d) l ∧ d = pos - (pos - d) ∧ 1 ≤ d ∧ d ≤ pos := by
  rw [findLongestMatch] at h
  rcases flmOuter_provenance w data pos
      (List.range' (pos + 2) (min (pos + 15) (data.length + 1) - (pos + 2))) none
      with hout | ⟨j, hj, i, hi, hm, heq⟩
  · rw [hout] at h
    simp at h
  · rw [heq] at h
    rw [List.mem_range'_1] at hj hi
    obtain ⟨hj1, hj2⟩ := hj
    obtain ⟨hi1, hi2⟩ := hi
    have hjle : j ≤ data.length := by omega
    have hipos : i < pos := by omega
    have hsub : (pySlice data pos j).length = j - pos := by
      rw [pySlice_length]
      omega
    rw [hsub] at h
    have h' : (if 0 < pos - i ∧ 0 < j - pos then some (pos - i, j - pos) else none) =
        some (d, l) := h
    rw [if_pos (by omega)] at h'
    injection h' with h1
    injection h1 with hd hl
    have hdpos : d = pos - i := hd.symm
    have hieq : i = pos - d := by omega
    have hLeq : l = j - pos := hl.symm
    refine ⟨?_, by omega, by omega, by omega⟩
    rw [lzCand, ← hieq]
    refine ⟨by omega, hipos, by omega, by omega, by omega, ?_⟩
    have hplj : pos + l = j := by omega
    rw [hplj]
    exact hm

theorem findLongestMatch_sound {w : Nat} {data : List Nat} {pos d l : Nat}
    (h : findLongestMatch w data pos = some (d, l)) :
    1 ≤ d ∧ d ≤ pos ∧ d ≤ w ∧ 2 ≤ l ∧ l ≤ 14 ∧ pos + l ≤ data.length ∧
      ∀ k < l, data.get? (pos + k) = data.get? (pos + k - d) := by
  obtain ⟨hc, hdd, hd1, hdp⟩ := findLongestMatch_cand h
  obtain ⟨h1, h2, h3, h4, h5, h6⟩ := hc
  refine ⟨hd1, hdp, by omega, h3, h4, h5, ?_⟩
  have hshift := matchedAt_shift h2 h5 h6
  intro k hk
  have := hshift k hk
  rw [this]
  congr 1
  omega

theorem lz77CopyLoop_take (data : List Nat) (d : Nat) :
    ∀ (n pos : Nat), 1 ≤ d → d ≤ pos → pos + n ≤ data.length →
      (∀ k < n, data.get? (pos + k) = data.get? (pos + k - d)) →
      lz77CopyLoop (data.take pos) d n = some (data.take (pos + n))
  | 0, pos => by
    intro _ _ _ _
    rw [lz77CopyLoop, Nat.add_zero]
  | m + 1, pos => by
    intro hd1 hdp hlen hpt
    have hposlt : pos < data.length := by omega
    have htl : (data.take pos).length = pos := by
      rw [List.length_take]
      omega
    have hidx : pyNegIndex (data.take pos) d = data.get? (pos - d) := by
      rw [pyNegIndex, if_neg (by omega), if_pos (by omega), htl,
        List.get?_take (by omega)]
    have hbyte : data.get? (pos - d) = data.get? pos := by
      have h0 := hpt 0 (by omega)
      simpa using h0.symm
    have hsome := List.get?_eq_get hposlt
    rw [lz77CopyLoop, hidx, hbyte, hsome]
    have happ : data.take pos ++ [data.get ⟨pos, hposlt⟩] = data.take (pos + 1) := by
      rw [List.take_succ]
      congr 1
      rw [← List.get?_eq_getElem?, hsome]
      rfl
    show lz77CopyLoop (List.take pos data ++ [data.get ⟨pos, hposlt⟩]) d m = _
    rw [happ]
    have ih := lz77CopyLoop_take data d m (pos + 1) hd1 (by omega) (by omega)
      (fun k hk => by
        have := hpt (k + 1) (by omega)
        have he1 : pos + 1 + k = pos + (k + 1) := by omega
        rw [he1]
        exact this)
    rw [ih]
    have : pos + 1 + m = pos + (m + 1) := by omega
    rw [this]

/-- Token-level decompression: the effect of the decompress loop body
for a parsed token stream (literal append, match copy loop). -/
def applyTokens : List LZToken → List Nat → Option (List Nat)
  | [], out => some out
  | .lit b :: ts, out => applyTokens ts (out ++ [b])
  | .mtch d l :: ts, out =>
    match lz77CopyLoop out d l with
    | some out2 => applyTokens ts out2
    | none => none

theorem applyTokens_compress (w : Nat) (data : List Nat) :
    ∀ (fuel i : Nat), data.length - i ≤ fuel → i ≤ data.length →
      applyTokens (lz77CompressFuel w data i fuel) (data.take i) = some data
  | 0, i => by
    intro h1 h2
    rw [lz77CompressFuel, applyTokens]
    have : i = data.length := by omega
    rw [this, List.take_length]
  | fuel + 1, i => by
    intro h1 h2
    rw [lz77CompressFuel]
    by_cases hi : i < data.length
    · rw [if_pos hi]
      cases hm : findLongestMatch w data i with
      | some dl =>
        obtain ⟨d, l⟩ := dl
        obtain ⟨hd1, hdp, hdw, hl2, hl14, hlen, hpt⟩ := findLongestMatch_sound hm
        rw [applyTokens, lz77CopyLoop_take data d l i hd1 hdp hlen hpt]
        exact applyTokens_compress w data fuel (i + l) (by omega) (by omega)
      | none =>
        rw [applyTokens]
        have hsome := List.get?_eq_get hi
        have hgd : data.getD i 0 = data.get ⟨i, hi⟩ := by
          rw [List.getD_eq_getElem?_getD, ← List.get?_eq_getElem?, hsome]
          rfl
        have happ : data.take i ++ [data.getD i 0] = data.take (i + 1) := by
          rw [hgd, List.take_succ]
          congr 1
          rw [← List.get?_eq_getElem?, hsome]
          rfl
        rw [happ]
        exact applyTokens_compress w data fuel (i + 1) (by omega) (by omega)
    · rw [if_neg hi, applyTokens]
      have : i = data.length := by omega
      rw [this, List.take_length]

/-- Well-formedness of the tokens `compress_data` emits: a literal is a
byte; a match fits the 12-bit distance and 4-bit length fields with a
positive length. -/
def wfToken : LZToken → Prop
  | .lit b => b < 256
  | .mtch d l => d < 4096 ∧ 1 ≤ l ∧ l < 16

theorem lz77DecompressLoop_lit (b : Nat) (hb : b < 256) (tail : List Bool) (out : List Nat) :
    lz77DecompressLoop (serializeToken (.lit b) ++ tail) out =
      lz77DecompressLoop tail (out ++ [b]) := by
  have hnb : (natToBits 8 b).length = 8 := natToBits_length 8 b
  have hform : serializeToken (.lit b) ++ tail = false :: (natToBits 8 b ++ tail) := by
    rw [serializeToken]
    simp
  rw [hform, lz77DecompressLoop.eq_def,
    if_pos (by simp only [List.length_cons, List.length_append, hnb]; omega)]
  split
  · rename_i heq
    exact absurd heq (by simp)
  · rename_i flag rest2 heq
    injection heq with h1 h2
    subst h1
    subst h2
    rw [if_neg (by simp)]
    have htake : (natToBits 8 b ++ tail).take 8 = natToBits 8 b := by
      rw [List.take_append_of_le_length (by omega), List.take_of_length_le (by omega)]
    have hdrop : (natToBits 8 b ++ tail).drop 8 = tail := by
      rw [List.drop_append_of_le_length (by omega), List.drop_of_length_le (by omega)]
      simp
    rw [htake, hdrop, bitsToNat_natToBits_of_lt (by norm_num; omega)]

theorem lz77DecompressLoop_mtch (d l : Nat) (hd : d < 4096) (hl : l < 16)
    (tail : List Bool) (out : List Nat) :
    lz77DecompressLoop (serializeToken (.mtch d l) ++ tail) out =
      match lz77CopyLoop out d l with
      | some out2 => lz77DecompressLoop tail out2
      | none => none := by
  have hnb1 : (natToBits 8 (d / 16)).length = 8 := natToBits_length _ _
  have hnb2 : (natToBits 8 ((d % 16) * 16 + l)).length = 8 := natToBits_length _ _
  have hform : serializeToken (.mtch d l) ++ tail =
      true :: (natToBits 8 (d / 16) ++ (natToBits 8 ((d % 16) * 16 + l) ++ tail)) := by
    rw [serializeToken]
    simp
  rw [hform, lz77DecompressLoop.eq_def,
    if_pos (by simp only [List.length_cons, List.length_append, hnb1, hnb2]; omega)]
  split
  · rename_i heq
    exact absurd heq (by simp)
  · rename_i flag rest2 heq
    injection heq with h1 h2
    subst h1
    subst h2
    rw [if_pos rfl]
    have htake1 : (natToBits 8 (d / 16) ++ (natToBits 8 ((d % 16) * 16 + l) ++ tail)).take 8 =
        natToBits 8 (d / 16) := by
      rw [List.take_append_of_le_length (by omega), List.take_of_length_le (by omega)]
    have hdrop1 : (natToBits 8 (d / 16) ++ (natToBits 8 ((d % 16) * 16 + l) ++ tail)).drop 8 =
        natToBits 8 ((d % 16) * 16 + l) ++ tail := by
      rw [List.drop_append_of_le_length (by omega), List.drop_of_length_le (by omega)]
      simp
    have htake2 : (natToBits 8 ((d % 16) * 16 + l) ++ tail).take 8 =
        natToBits 8 ((d % 16) * 16 + l) := by
      rw [List.take_append_of_le_length (by omega), List.take_of_length_le (by omega)]
    rw [htake1, hdrop1, htake2]
    have hpad1 : bytePad (natToBits 8 (d / 16)) = some (d / 16) := by
      rw [bytePad, if_neg (by intro hh; have := congrArg List.length hh; simp [hnb1] at this),
        hnb1]
      simp only [Nat.sub_self, List.replicate_zero, List.append_nil]
      rw [bitsToNat_natToBits_of_lt (by norm_num; omega)]
    have hpad2 : bytePad (natToBits 8 ((d % 16) * 16 + l)) = some ((d % 16) * 16 + l) := by
      rw [bytePad, if_neg (by intro hh; have := congrArg List.length hh; simp [hnb2] at this),
        hnb2]
      simp only [Nat.sub_self, List.replicate_zero, List.append_nil]
      rw [bitsToNat_natToBits_of_lt (by norm_num; omega)]
    rw [hpad1, hpad2]
    have hq : ((d % 16) * 16 + l) / 16 = d % 16 := by
      rw [Nat.add_comm, Nat.add_mul_div_right l (d % 16) (by norm_num : (0 : Nat) < 16),
        Nat.div_eq_of_lt hl]
      omega
    have hr : ((d % 16) * 16 + l) % 16 = l := by
      rw [Nat.add_comm, Nat.add_mul_mod_self_right, Nat.mod_eq_of_lt hl]
    have harith1 : d / 16 * 16 + ((d % 16) * 16 + l) / 16 = d := by
      rw [hq]
      omega
    have harith2 : ((d % 16) * 16 + l) % 16 = l := hr
    have hdrop16 : (natToBits 8 (d / 16) ++ (natToBits 8 ((d % 16) * 16 + l) ++ tail)).drop 16 =
        tail := by
      rw [← List.append_assoc,
        List.drop_append_of_le_length (by simp [hnb1, hnb2]),
        List.drop_of_length_le (by simp [hnb1, hnb2])]
      simp
    show (match lz77CopyLoop out (d / 16 * 16 + ((d % 16) * 16 + l) / 16)
        (((d % 16) * 16 + l) % 16) with
      | some out2 =>
        lz77DecompressLoop
          ((natToBits 8 (d / 16) ++ (natToBits 8 ((d % 16) * 16 + l) ++ tail)).drop 16) out2
      | none => none) = _
    rw [harith1, harith2]
    cases hcopy : lz77CopyLoop out d l with
    | some out2 =>
      rw [hdrop16]
    | none => rfl

theorem lz77DecompressLoop_parse :
    ∀ (ts : List LZToken) (rest : List Bool) (out : List Nat),
      (∀ t ∈ ts, wfToken t) → rest.length < 9 →
      lz77DecompressLoop (ts.flatMap serializeToken ++ rest) out = applyTokens ts out
  | [], rest, out => by
    intro _ hrest
    rw [List.flatMap_nil, List.nil_append, applyTokens,
      lz77DecompressLoop.eq_def, if_neg (by omega)]
  | .lit b :: ts, rest, out => by
    intro hwf hrest
    have hb : b < 256 := hwf (.lit b) (by simp)
    rw [List.flatMap_cons, List.append_assoc, lz77DecompressLoop_lit b hb _ out,
      applyTokens]
    exact lz77DecompressLoop_parse ts rest (out ++ [b]) (fun t ht => hwf t (by simp [ht])) hrest
  | .mtch d l :: ts, rest, out => by
    intro hwf hrest
    obtain ⟨hd, _, hl⟩ := hwf (.mtch d l) (by simp)
    rw [List.flatMap_cons, List.append_assoc, lz77DecompressLoop_mtch d l hd hl _ out,
      applyTokens]
    cases hcopy : lz77CopyLoop out d l with
    | some out2 =>
      exact lz77DecompressLoop_parse ts rest out2 (fun t ht => hwf t (by simp [ht])) hrest
    | none => rfl

theorem lz77CompressFuel_wf (w : Nat) (hw : w < 4096) (data : List Nat)
    (hb : ∀ b ∈ data, b < 256) :
    ∀ (fuel i : Nat) (t : LZToken), t ∈ lz77CompressFuel w data i fuel → wfToken t
  | 0, i, t => by
    intro ht
    rw [lz77CompressFuel] at ht
    simp at ht
  | fuel + 1, i, t => by
    intro ht
    rw [lz77CompressFuel] at ht
    by_cases hi : i < data.length
    · rw [if_pos hi] at ht
      cases hm : findLongestMatch w data i with
      | some dl =>
        obtain ⟨d, l⟩ := dl
        rw [hm] at ht
        obtain ⟨hd1, hdp, hdw, hl2, hl14, hlen, _⟩ := findLongestMatch_sound hm
        rcases List.mem_cons.mp ht with hh | hh
        · rw [hh, wfToken]
          omega
        · exact lz77CompressFuel_wf w hw data hb fuel (i + l) t hh
      | none =>
        rw [hm] at ht
        rcases List.mem_cons.mp ht with hh | hh
        · rw [hh, wfToken]
          have hsome := List.get?_eq_get hi
          have : data.getD i 0 = data.get ⟨i, hi⟩ := by
            rw [List.getD_eq_getElem?_getD, ← List.get?_eq_getElem?, hsome]
            rfl
          rw [this]
          exact hb _ (List.get_mem data i hi)
        · exact lz77CompressFuel_wf w hw data hb fuel (i + 1) t hh
    · rw [if_neg hi] at ht
      simp at ht

theorem fillBits_pad (bits : List Bool) :
    ∃ p, fillBits bits = bits ++ List.replicate p false ∧ p < 8 := by
  refine ⟨(8 - bits.length % 8) % 8, rfl, ?_⟩
  omega

/-- Byte-level LZ77 round trip: decompressing the serialized, padded
token stream of `compress_data` recovers the original byte string. -/
theorem lz77_roundtrip_bytes (w : Nat) (hw : w < 4096) (data : List Nat)
    (hb : ∀ b ∈ data, b < 256) :
    lz77DecompressLoop (fillBits ((lz77CompressTokens w data).flatMap serializeToken)) [] =
      some data := by
  obtain ⟨p, hfill, hp⟩ := fillBits_pad ((lz77CompressTokens w data).flatMap serializeToken)
  rw [hfill, lz77DecompressLoop_parse (lz77CompressTokens w data) _ []
    (fun t ht => lz77CompressFuel_wf w hw data hb data.length 0 t ht)
    (by simp [List.length_replicate]; omega)]
  have h0 := applyTokens_compress w data data.length 0 (by omega) (by omega)
  rw [List.take_zero] at h0
  exact h0

/-- Text-level LZ77 round trip for ASCII text (the byte level holds for
every byte string; ASCII makes the final UTF-8 decode the identity). -/
theorem lz77_roundtrip_ascii (w : Nat) (text : List Char)
    (h : ∀ c ∈ text, c.toNat < 128) :
    lz77Decompress (lz77CompressData w text) = some text := by
  rw [lz77CompressData, lz77Decompress]
  rw [lz77_roundtrip_bytes (min w 400) (by omega) (utf8Encode text) (utf8Encode_byte_lt text)]
  exact utf8Decode_utf8Encode_ascii text h

/-! ### Facade (`compression.py`). -/

/-- Model of `Compressor.VALID_METHODS`. -/
def VALID_METHODS : List String := ["utf8", "lz77", "huffman", "six_bit", "seven_bit"]

/-- Model of `Compressor.compress`: dispatch on the configured method string.
`utf8` packs the UTF-8 bytes of the text, `lz77` runs
`LZ77Compressor()` (default window 20), `huffman` runs
`HuffmanCompressor().compress` (whose errors on empty input surface as
`decodeError`), the fixed-width methods run their codecs. -/
def facadeCompress (method : String) (text : List Char) : Except CodecError (List Bool) :=
  if method = "utf8" then .ok (bytesToBits (utf8Encode text))
  else if method = "lz77" then .ok (lz77CompressData 20 text)
  else if method = "huffman" then
    match huffmanCompress text with
    | some bits => .ok bits
    | none => .error .decodeError
  else if method = "six_bit" then sixBitCompress text
  else if method = "seven_bit" then sevenBitCompress text
  else .error .unsupportedMethod

/-- Model of `Compressor.decompress`.  For `huffman` the source calls
`HuffmanCompressor().decompress(compressed)` without the mandatory
`tree` argument, an unconditional `TypeError`, modelled as
`missingTree`. -/
def facadeDecompress (method : String) (bits : List Bool) : Except CodecError (List Char) :=
  if method = "utf8" then
    match utf8Decode (bitsToBytes bits) with
    | some text => .ok text
    | none => .error .decodeError
  else if method = "lz77" then
    match lz77Decompress bits with
    | some text => .ok text
    | none => .error .decodeError
  else if method = "huffman" then .error .missingTree
  else if method = "six_bit" then sixBitDecompress bits
  else if method = "seven_bit" then sevenBitDecompress bits
  else .error .unsupportedMethod

/-- C1: for all ASCII text restricted to a codec's declared alphabet,
`decompress(compress(text)) == text` for the facade methods `utf8`,
`lz77` and `seven_bit`, and `decompress(compress(text)) == text.lower()`
for `six_bit` when the lower-cased text is alphabet-restricted. -/
theorem claim_C1_roundtrip (text : List Char) :
    ((∀ c ∈ text, c.toNat < 128) → ∃ bits,
      facadeCompress "utf8" text = .ok bits ∧
        facadeDecompress "utf8" bits = .ok text) ∧
    ((∀ c ∈ text, c.toNat < 128) → ∃ bits,
      facadeCompress "lz77" text = .ok bits ∧
        facadeDecompress "lz77" bits = .ok text) ∧
    ((∀ c ∈ text, c ∈ SEVEN_BIT_CHARSET) → ∃ bits,
      facadeCompress "seven_bit" text = .ok bits ∧
        facadeDecompress "seven_bit" bits = .ok text) ∧
    ((∀ c ∈ text, c.toLower ∈ SIX_BIT_CHARSET) → ∃ bits,
      facadeCompress "six_bit" text = .ok bits ∧
        facadeDecompress "six_bit" bits = .ok (text.map Char.toLower)) := by
  refine ⟨?_, ?_, ?_, ?_⟩
  · intro h
    refine ⟨bytesToBits (utf8Encode text), rfl, ?_⟩
    rw [facadeDecompress, if_pos rfl,
      bitsToBytes_bytesToBits (utf8Encode text) (utf8Encode_byte_lt text),
      utf8Decode_utf8Encode_ascii text h]
  · intro h
    refine ⟨lz77CompressData 20 text, rfl, ?_⟩
    rw [facadeDecompress, if_neg (by decide), if_pos rfl,
      lz77_roundtrip_ascii 20 text h]
  · intro h
    obtain ⟨bits, hc, hlen, hd⟩ := sevenBitRoundTripAux text h
    refine ⟨bits, ?_, ?_⟩
    · rw [facadeCompress, if_neg (by decide), if_neg (by decide), if_neg (by decide),
        if_neg (by decide), if_pos rfl]
      exact hc
    · rw [facadeDecompress, if_neg (by decide), if_neg (by decide), if_neg (by decide),
        if_neg (by decide), if_pos rfl, sevenBitDecompress]
      exact hd bits.length (by omega)
  · intro h
    obtain ⟨bits, hc, hlen, hd⟩ := sixBitRoundTripAux text h
    refine ⟨bits, ?_, ?_⟩
    · rw [facadeCompress, if_neg (by decide), if_neg (by decide), if_neg (by decide),
        if_pos rfl]
      exact hc
    · rw [facadeDecompress, if_neg (by decide), if_neg (by decide), if_neg (by decide),
        if_pos rfl, sixBitDecompress]
      exact hd bits.length (by omega)

/-- Witness for C1 at the concrete text `"hi"`. -/
theorem claim_C1_roundtrip_witness :
    (∃ bits, facadeCompress "utf8" ['h', 'i'] = .ok bits ∧
      facadeDecompress "utf8" bits = .ok ['h', 'i']) ∧
    (∃ bits, facadeCompress "lz77" ['h', 'i'] = .ok bits ∧
      facadeDecompress "lz77" bits = .ok ['h', 'i']) ∧
    (∃ bits, facadeCompress "seven_bit" ['h', 'i'] = .ok bits ∧
      facadeDecompress "seven_bit" bits = .ok ['h', 'i']) ∧
    (∃ bits, facadeCompress "six_bit" ['h', 'i'] = .ok bits ∧
      facadeDecompress "six_bit" bits = .ok ['h', 'i']) := by
  have h := claim_C1_roundtrip ['h', 'i']
  refine ⟨h.1 (by decide), h.2.1 (by decide), h.2.2.1 (by decide), ?_⟩
  have h6 := h.2.2.2 (by decide)
  simpa using h6

instance {e a : Type} [DecidableEq e] [DecidableEq a] : DecidableEq (Except e a) := fun x y =>
  match x, y with
  | .error e1, .error e2 =>
    if h : e1 = e2 then .isTrue (by rw [h]) else .isFalse (fun hh => h (by injection hh))
  | .ok a1, .ok a2 =>
    if h : a1 = a2 then .isTrue (by rw [h]) else .isFalse (fun hh => h (by injection hh))
  | .error _, .ok _ => .isFalse (fun hh => Except.noConfusion hh)
  | .ok _, .error _ => .isFalse (fun hh => Except.noConfusion hh)

/-! ### Claim theorems. -/

/-- C3 counterexample: on the 10-byte input `"aaaaaaaaaa"` the token
stream starts with a single literal followed immediately by a match —
there is no second literal token, because at position 1 the
self-overlapping search already finds a distance-1 match (of length 9,
covering the remaining 9 bytes, not 8). -/
theorem claim_C3_counterexample :
    lz77CompressTokens 20 (utf8Encode "aaaaaaaaaa".toList) =
      [.lit 97, .mtch 1 9] ∧
    ¬ ∃ b1 b2 rest, lz77CompressTokens 20 (utf8Encode "aaaaaaaaaa".toList) =
        .lit b1 :: .lit b2 :: rest := by
  refine ⟨by decide, ?_⟩
  intro ⟨b1, b2, rest, hr⟩
  rw [show lz77CompressTokens 20 (utf8Encode "aaaaaaaaaa".toList) =
      [.lit 97, .mtch 1 9] from by decide] at hr
  injection hr with h1 h2
  injection h2 with h3 h4
  exact LZToken.noConfusion h3

/-- C3 amended: LZ77 compress of the 10-byte input `"aaaaaaaaaa"`
yields a literal token for the first byte only, followed by a single
match token with distance 1 and length 9 covering the remaining 9
bytes (the self-overlapping copy). -/
theorem claim_C3_repetition :
    lz77CompressTokens 20 (utf8Encode "aaaaaaaaaa".toList) =
      [.lit 97, .mtch 1 9] := by
  decide

/-- C4: for the single-symbol input `"a"`, `build_tree` assigns the
code `""` (the empty bit string) to `'a'` — the degenerate empty code
the specification forbids — and `compress` consequently produces an
empty bit sequence. -/
theorem claim_C4_single_symbol_empty_code :
    buildTree ['a'] = some [('a', [])] ∧ huffmanCompress ['a'] = some [] ∧
    buildTree ['a', 'a', 'a'] = some [('a', [])] := by
  decide

/-- C5 counterexample: a 7-bit stream fed to the 6-bit decoder (final
chunk of 1 bit) silently decodes the partial chunk `1` as the code 1 =
`'b'` and returns `"ab"`; likewise the 7-bit decoder turns the lone
bit `1` into `'B'`.  No failure occurs. -/
theorem claim_C5_counterexample :
    sixBitDecompress [false, false, false, false, false, false, true] =
      .ok ['a', 'b'] ∧
    sevenBitDecompress [true] = .ok ['B'] := by
  decide

theorem sixBitDecompressFuel_length :
    ∀ (fuel : Nat) (bits : List Bool) (cs : List Char),
      sixBitDecompressFuel fuel bits = .ok cs → bits.length ≤ fuel →
      cs.length = (bits.length + 5) / 6
  | 0, bits, cs => by
    intro h hle
    have hbn : bits = [] := List.eq_nil_of_length_eq_zero (by omega)
    subst hbn
    rw [sixBitDecompressFuel] at h
    injection h with h
    rw [← h]
    rfl
  | fuel + 1, bits, cs => by
    intro h hle
    cases bits with
    | nil =>
      rw [sixBitDecompressFuel] at h
      injection h with h
      rw [← h]
      rfl
    | cons b rest =>
      rw [sixBitDecompressFuel] at h
      cases hg : SIX_BIT_CHARSET.get? (bitsToNat ((b :: rest).take 6)) with
      | none =>
        rw [hg] at h
        exact absurd h (by simp)
      | some ch =>
        rw [hg] at h
        cases hrec : sixBitDecompressFuel fuel ((b :: rest).drop 6) with
        | ok cs2 =>
          rw [hrec] at h
          injection h with h
          have hlen := sixBitDecompressFuel_length fuel ((b :: rest).drop 6) cs2 hrec
            (by simp only [List.length_drop, List.length_cons] at hle ⊢; omega)
          rw [← h]
          simp only [List.length_drop, List.length_cons] at hlen ⊢
          omega
        | error e =>
          rw [hrec] at h
          exact absurd h (by simp)

theorem sevenBitDecompressFuel_length :
    ∀ (fuel : Nat) (bits : List Bool) (cs : List Char),
      sevenBitDecompressFuel fuel bits = .ok cs → bits.length ≤ fuel →
      cs.length = (bits.length + 6) / 7
  | 0, bits, cs => by
    intro h hle
    have hbn : bits = [] := List.eq_nil_of_length_eq_zero (by omega)
    subst hbn
    rw [sevenBitDecompressFuel] at h
    injection h with h
    rw [← h]
    rfl
  | fuel + 1, bits, cs => by
    intro h hle
    cases bits with
    | nil =>
      rw [sevenBitDecompressFuel] at h
      injection h with h
      rw [← h]
      rfl
    | cons b rest =>
      rw [sevenBitDecompressFuel] at h
      cases hg : SEVEN_BIT_CHARSET.get? (bitsToNat ((b :: rest).take 7)) with
      | none =>
        rw [hg] at h
        exact absurd h (by simp)
      | some ch =>
        rw [hg] at h
        cases hrec : sevenBitDecompressFuel fuel ((b :: rest).drop 7) with
        | ok cs2 =>
          rw [hrec] at h
          injection h with h
          have hlen := sevenBitDecompressFuel_length fuel ((b :: rest).drop 7) cs2 hrec
            (by simp only [List.length_drop, List.length_cons] at hle ⊢; omega)
          rw [← h]
          simp only [List.length_drop, List.length_cons] at hlen ⊢
          omega
        | error e =>
          rw [hrec] at h
          exact absurd h (by simp)

/-- C5 amended: a fixed-width decompress call whose input has a final
chunk of fewer than `width` bits does not fail — whenever it returns
text it returns one symbol per (full or partial) chunk,
`ceil(len/width)` symbols in total, silently decoding the partial
chunk as a shorter binary number. -/
theorem claim_C5_partial_chunk (bits : List Bool) (cs6 cs7 : List Char) :
    (sixBitDecompress bits = .ok cs6 → cs6.length = (bits.length + 5) / 6) ∧
    (sevenBitDecompress bits = .ok cs7 → cs7.length = (bits.length + 6) / 7) :=
  ⟨fun h => sixBitDecompressFuel_length bits.length bits cs6 h (by omega),
   fun h => sevenBitDecompressFuel_length bits.length bits cs7 h (by omega)⟩

/-- Witness for C5 amended at the 7-bit input of the counterexample:
the 6-bit decoder returns 2 = ceil(7/6) symbols, the 7-bit decoder
returns 1 = ceil(7/7) symbol. -/
theorem claim_C5_partial_chunk_witness :
    (['a', 'b'] : List Char).length = (7 + 5) / 6 ∧
    (['A'] : List Char).length = (7 + 6) / 7 :=
  ⟨(claim_C5_partial_chunk [false, false, false, false, false, false, true]
      ['a', 'b'] ['A']).1 (by decide),
   (claim_C5_partial_chunk [false, false, false, false, false, false, false]
      ['a', 'b'] ['A']).2 (by decide)⟩

/-- C7 counterexample: the 6-bit charset does not have `2^6 = 64`
entries — it has 62 — and the codec nevertheless constructs and works,
so no size-equality check exists. -/
theorem claim_C7_counterexample :
    SIX_BIT_CHARSET.length = 62 ∧ SIX_BIT_CHARSET.length ≠ 64 := by
  decide

/-- C7 amended: the 6-bit charset has 62 entries and the 7-bit charset
88; both fit their width (`62 ≤ 64`, `88 ≤ 128`) and have no duplicate
symbols, so each charset is a bijection between its symbols and the
integer codes `0..size-1`; no construction-time size check exists. -/
theorem claim_C7_charset_sizes :
    SIX_BIT_CHARSET.length = 62 ∧ SEVEN_BIT_CHARSET.length = 88 ∧
    SIX_BIT_CHARSET.length ≤ 2 ^ 6 ∧ SEVEN_BIT_CHARSET.length ≤ 2 ^ 7 ∧
    SIX_BIT_CHARSET.Nodup ∧ SEVEN_BIT_CHARSET.Nodup := by
  decide

theorem lz77EmissionsFuel_match (w : Nat) (data : List Nat) :
    ∀ (fuel i p d l : Nat),
      (p, LZToken.mtch d l) ∈ lz77EmissionsFuel w data i fuel →
      findLongestMatch w data p = some (d, l)
  | 0, i, p, d, l => by
    intro h
    rw [lz77EmissionsFuel] at h
    simp at h
  | fuel + 1, i, p, d, l => by
    intro h
    rw [lz77EmissionsFuel] at h
    by_cases hi : i < data.length
    · rw [if_pos hi] at h
      cases hm : findLongestMatch w data i with
      | some dl =>
        obtain ⟨d2, l2⟩ := dl
        rw [hm] at h
        rcases List.mem_cons.mp h with hh | hh
        · injection hh with h1 h2
          injection h2 with h3 h4
          rw [h1, h3, h4]
          exact hm
        · exact lz77EmissionsFuel_match w data fuel (i + l2) p d l hh
      | none =>
        rw [hm] at h
        rcases List.mem_cons.mp h with hh | hh
        · injection hh with h1 h2
          exact absurd h2 (by simp)
        · exact lz77EmissionsFuel_match w data fuel (i + 1) p d l hh
    · rw [if_neg hi] at h
      simp at h

/-- C8: every match token `compress_data` emits at position `p`
satisfies `1 ≤ distance ≤ min(window_size, p)` and
`2 ≤ length ≤ 15`; no match of length below 2 is ever emitted. -/
theorem claim_C8_match_bounds (w : Nat) (data : List Nat) (p d l : Nat)
    (h : (p, LZToken.mtch d l) ∈ lz77Emissions w data) :
    1 ≤ d ∧ d ≤ min w p ∧ 2 ≤ l ∧ l ≤ 15 := by
  have hm := lz77EmissionsFuel_match w data data.length 0 p d l h
  obtain ⟨h1, h2, h3, h4, h5, _, _⟩ := findLongestMatch_sound hm
  exact ⟨h1, by omega, h4, by omega⟩

/-- Witness for C8 at the match `(distance 1, length 9)` emitted at
position 1 for the input `"aaaaaaaaaa"` with window size 20. -/
theorem claim_C8_match_bounds_witness :
    1 ≤ 1 ∧ 1 ≤ min 20 1 ∧ 2 ≤ 9 ∧ 9 ≤ 15 :=
  claim_C8_match_bounds 20 (List.replicate 10 97) 1 1 9 (by decide)

/-- C10: `findLongestMatch` never returns a match longer than 14 — one
less than the lookahead buffer size of 15, because the candidate end
index ranges over `[pos+2, pos+15)` — and consequently `compress_data`
never emits a match token of length 15 even though the 4-bit length
field could carry it. -/
theorem claim_C10_length_cap :
    (∀ (w : Nat) (data : List Nat) (pos d l : Nat),
      findLongestMatch w data pos = some (d, l) → l ≤ 14) ∧
    (∀ (w : Nat) (data : List Nat) (p d : Nat),
      (p, LZToken.mtch d 15) ∉ lz77Emissions w data) := by
  constructor
  · intro w data pos d l h
    obtain ⟨_, _, _, _, h14, _, _⟩ := findLongestMatch_sound h
    exact h14
  · intro w data p d h
    have hm := lz77EmissionsFuel_match w data data.length 0 p d 15 h
    obtain ⟨_, _, _, _, h14, _, _⟩ := findLongestMatch_sound hm
    omega

/-- Witness for C10: the length-9 match found at position 1 of
`"aaaaaaaaaa"` is at most 14, and no length-15 match token is emitted
for that input. -/
theorem claim_C10_length_cap_witness :
    (9 : Nat) ≤ 14 ∧ (1, LZToken.mtch 1 15) ∉ lz77Emissions 20 (List.replicate 10 97) :=
  ⟨claim_C10_length_cap.1 20 (List.replicate 10 97) 1 1 9 (by decide),
   claim_C10_length_cap.2 20 (List.replicate 10 97) 1 1⟩

/-- C2 counterexample: the texts `"ab"` and `"ba"` compress to the
same bit sequence `01` while their trees assign `'a'` the codes `0`
and `1` respectively — so the value `compress` returns cannot contain
(or even determine) the tree: only the bits are handed back. -/
theorem claim_C2_counterexample :
    huffmanCompress ['a', 'b'] = some [false, true] ∧
    huffmanCompress ['b', 'a'] = some [false, true] ∧
    (buildTree ['a', 'b']).map (fun t => treeLookup t 'a') = some (some [false]) ∧
    (buildTree ['b', 'a']).map (fun t => treeLookup t 'a') = some (some [true]) := by
  decide

/-- C2 amended: `HuffmanCompressor.compress` returns only the bit
sequence (the tree is a separate artifact of `build_tree`), the facade
huffman compress surfaces exactly those bits, and the facade huffman
decompress — which supplies no tree to a method that requires one —
fails on every input. -/
theorem claim_C2_bits_only (text : List Char) (bits tbits : List Bool)
    (h : huffmanCompress text = some tbits) :
    facadeCompress "huffman" text = .ok tbits ∧
    facadeDecompress "huffman" bits = .error .missingTree := by
  constructor
  · rw [facadeCompress, if_neg (by decide), if_neg (by decide), if_pos rfl, h]
  · rw [facadeDecompress, if_neg (by decide), if_neg (by decide), if_pos rfl]

/-- Witness for C2 amended at `"ab"`. -/
theorem claim_C2_bits_only_witness :
    facadeCompress "huffman" ['a', 'b'] = .ok [false, true] ∧
    facadeDecompress "huffman" [] = .error .missingTree :=
  claim_C2_bits_only ['a', 'b'] [] [false, true] (by decide)

/-- C6 counterexample: with the tree built from `"aaaaabbc"` (codes
`b = 0`, `a = 10`, `c = 11`), decompressing the 3-bit stream `101`
exhausts the stream with the non-empty unmatched buffer `1` and
returns the partial text `"a"` as an ordinary value — the function has
no failure path, so no `TruncatedStream` is raised. -/
theorem claim_C6_counterexample :
    buildTree ("aaaaabbc".toList) =
      some [('b', [false]), ('a', [true, false]), ('c', [true, true])] ∧
    (huffmanDecompressFull [('b', [false]), ('a', [true, false]), ('c', [true, true])]
      [true, false, true]).2 = [true] ∧
    huffmanDecompress [('b', [false]), ('a', [true, false]), ('c', [true, true])]
      [true, false, true] = ['a'] := by
  decide

theorem huffmanDecompressFull_split (tree : List (Char × List Bool)) (bits : List Bool) :
    ∃ k, k ≤ bits.length ∧
      bits.drop k = (huffmanDecompressFull tree bits).2 ∧
      huffmanDecompressFull tree (bits.take k) = ((huffmanDecompressFull tree bits).1, []) := by
  induction bits using List.reverseRecOn with
  | nil => exact ⟨0, by omega, rfl, rfl⟩
  | append_singleton bits b ih =>
    obtain ⟨k, hk, hdrop, htake⟩ := ih
    have hstep : huffmanDecompressFull tree (bits ++ [b]) =
        huffmanDecompressStep tree (huffmanDecompressFull tree bits) b := by
      rw [huffmanDecompressFull, huffmanDecompressFull, List.foldl_append,
        List.foldl_cons, List.foldl_nil]
    cases hlook : reverseLookup tree ((huffmanDecompressFull tree bits).2 ++ [b]) with
    | some ch =>
      refine ⟨(bits ++ [b]).length, by omega, ?_, ?_⟩
      · rw [List.drop_length, hstep, huffmanDecompressStep, hlook]
      · rw [List.take_length, hstep, huffmanDecompressStep, hlook]
    | none =>
      refine ⟨k, by simp; omega, ?_, ?_⟩
      · rw [List.drop_append_of_le_length hk, hdrop, hstep, huffmanDecompressStep, hlook]
      · rw [List.take_append_of_le_length hk, htake, hstep, huffmanDecompressStep, hlook]

/-- C6 amended: on exhausting the stream with a non-empty unmatched
buffer, `decompress` silently drops that buffer — the final buffer is
a suffix of the input, and decoding the input with that suffix removed
yields the same text with an empty final buffer — instead of failing
with `TruncatedStream`. -/
theorem claim_C6_silent_discard (tree : List (Char × List Bool)) (bits : List Bool) :
    ∃ k, k ≤ bits.length ∧
      bits.drop k = (huffmanDecompressFull tree bits).2 ∧
      huffmanDecompressFull tree (bits.take k) =
        ((huffmanDecompressFull tree bits).1, []) ∧
      huffmanDecompress tree (bits.take k) = huffmanDecompress tree bits := by
  obtain ⟨k, hk, hdrop, htake⟩ := huffmanDecompressFull_split tree bits
  exact ⟨k, hk, hdrop, htake, by rw [huffmanDecompress, huffmanDecompress, htake]⟩

theorem flmInner_keep (data : List Nat) (pos : Nat) (substring : List Nat)
    (d0 l0 : Nat) (hl : substring.length ≤ l0) :
    ∀ is, flmInner data pos substring is (some (d0, l0)) = some (d0, l0)
  | [] => rfl
  | i :: is => by
    rw [flmInner]
    have hbet : flmBetter (some (d0, l0)) substring.length = false := by
      rw [flmBetter]
      simp
      omega
    rw [hbet]
    simp only [Bool.false_eq_true, and_false, if_false]
    exact flmInner_keep data pos substring d0 l0 hl is

theorem flmInner_char (data : List Nat) (pos : Nat) (substring : List Nat) :
    ∀ (is : List Nat) (best : Option (Nat × Nat)),
      flmBetter best substring.length = true →
      flmInner data pos substring is best =
        match is.find? (fun i => decide (matchedAt data pos substring i)) with
        | some i => some (pos - i, substring.length)
        | none => best
  | [], best => by
    intro hb
    rw [flmInner, List.find?_nil]
  | i :: is, best => by
    intro hb
    rw [flmInner, List.find?_cons]
    by_cases hm : matchedAt data pos substring i
    · rw [if_pos (⟨hm, hb⟩ : _ ∧ _)]
      have : (decide (matchedAt data pos substring i)) = true := decide_eq_true hm
      rw [this]
      exact flmInner_keep data pos substring (pos - i) substring.length (le_refl _) is
    · have hdec : (decide (matchedAt data pos substring i)) = false :=
        decide_eq_false hm
      rw [hdec, if_neg (by intro hc; exact hm hc.1)]
      exact flmInner_char data pos substring is best hb

theorem find?_range_min {p : Nat → Bool} :
    ∀ {n a i : Nat}, (List.range' a n).find? p = some i →
      p i = true ∧ a ≤ i ∧ i < a + n ∧ ∀ i2, a ≤ i2 → i2 < i → p i2 = false := by
  intro n
  induction n with
  | zero =>
    intro a i h
    rw [List.range'_zero, List.find?_nil] at h
    exact absurd h (by simp)
  | succ m ih =>
    intro a i h
    rw [List.range'_succ, List.find?_cons] at h
    by_cases hpa : p a = true
    · rw [hpa] at h
      injection h with h
      subst h
      exact ⟨hpa, le_refl _, by omega, fun i2 h1 h2 => by omega⟩
    · rw [Bool.not_eq_true] at hpa
      rw [hpa] at h
      obtain ⟨hp, h1, h2, hmin⟩ := ih h
      refine ⟨hp, by omega, by omega, ?_⟩
      intro i2 hi1 hi2
      by_cases hia : i2 = a
      · rw [hia]
        exact hpa
      · exact hmin i2 (by omega) hi2

/-- Loop invariant for the outer loop of `findLongestMatch`: after all
`j < j0` have been processed, `best` is the canonical optimum over the
candidates of length `< j0 - pos` — the maximal candidate length, and
among candidates of that length the smallest window start (largest
distance). -/
def lzInv (w : Nat) (data : List Nat) (pos j0 : Nat) : Option (Nat × Nat) → Prop
  | none => ∀ i L, lzCand w data pos i L → j0 ≤ pos + L
  | some (d0, l0) =>
      lzCand w data pos (pos - d0) l0 ∧ 1 ≤ d0 ∧ d0 ≤ pos ∧ pos + l0 < j0 ∧
      (∀ i L, lzCand w data pos i L → pos + L < j0 → L ≤ l0) ∧
      (∀ i, lzCand w data pos i l0 → pos - d0 ≤ i)

theorem lzCand_of_matched {w : Nat} {data : List Nat} {pos j0 i : Nat}
    (hj2 : pos + 2 ≤ j0) (hj14 : j0 ≤ pos + 14) (hjlen : j0 ≤ data.length)
    (hi1 : pos - w ≤ i) (hi2 : i < pos)
    (hm : matchedAt data pos (pySlice data pos j0) i) :
    lzCand w data pos i (j0 - pos) := by
  refine ⟨hi1, hi2, by omega, by omega, by omega, ?_⟩
  have : pos + (j0 - pos) = j0 := by omega
  rw [this]
  exact hm

theorem matched_of_lzCand {w : Nat} {data : List Nat} {pos j0 i L : Nat}
    (hL : pos + L = j0) (hc : lzCand w data pos i L) :
    pos - w ≤ i ∧ i < pos ∧ matchedAt data pos (pySlice data pos j0) i := by
  obtain ⟨h1, h2, h3, h4, h5, h6⟩ := hc
  rw [hL] at h6
  exact ⟨h1, h2, h6⟩

theorem flmOuter_invariant (w : Nat) (data : List Nat) (pos : Nat) :
    ∀ (n j0 : Nat) (best : Option (Nat × Nat)),
      pos + 2 ≤ j0 → j0 + n ≤ pos + 15 → j0 + n ≤ data.length + 1 →
      lzInv w data pos j0 best →
      lzInv w data pos (j0 + n) (flmOuter w data pos (List.range' j0 n) best) := by
  intro n
  induction n with
  | zero =>
    intro j0 best _ _ _ hinv
    rw [List.range'_zero, flmOuter, Nat.add_zero]
    exact hinv
  | succ m ih =>
    intro j0 best hj2 hj15 hjlen hinv
    rw [List.range'_succ, flmOuter]
    have hj14 : j0 ≤ pos + 14 := by omega
    have hjl : j0 ≤ data.length := by omega
    have hsublen : (pySlice data pos j0).length = j0 - pos := by
      rw [pySlice_length]
      omega
    have hbet : flmBetter best (pySlice data pos j0).length = true := by
      cases best with
      | none => rfl
      | some dl =>
        obtain ⟨d0, l0⟩ := dl
        obtain ⟨_, _, _, hlt, _, _⟩ := hinv
        rw [flmBetter, hsublen]
        simp
        omega
    rw [flmInner_char data pos (pySlice data pos j0)
      (List.range' (pos - w) (pos - (pos - w))) best hbet]
    have hstep : lzInv w data pos (j0 + 1)
        (match (List.range' (pos - w) (pos - (pos - w))).find?
            (fun i => decide (matchedAt data pos (pySlice data pos j0) i)) with
          | some i => some (pos - i, (pySlice data pos j0).length)
          | none => best) := by
      cases hfind : (List.range' (pos - w) (pos - (pos - w))).find?
          (fun i => decide (matchedAt data pos (pySlice data pos j0) i)) with
      | some i0 =>
        obtain ⟨hp, hge, hlt, hmin⟩ := find?_range_min hfind
        have hi0pos : i0 < pos := by omega
        have hm0 : matchedAt data pos (pySlice data pos j0) i0 := of_decide_eq_true hp
        have hcand0 : lzCand w data pos i0 (j0 - pos) :=
          lzCand_of_matched hj2 hj14 hjl hge hi0pos hm0
        rw [lzInv, hsublen]
        have hii : pos - (pos - i0) = i0 := by omega
        refine ⟨?_, ?_, ?_, ?_, ?_, ?_⟩
        · rw [hii]
          exact hcand0
        · omega
        · omega
        · omega
        · intro i L hc hlt2
          by_cases hLj : pos + L = j0
          · omega
          · have hlt3 : pos + L < j0 := by omega
            cases best with
            | none =>
              have := hinv i L hc
              omega
            | some dl =>
              obtain ⟨d0, l0⟩ := dl
              obtain ⟨_, _, _, hl0, hmax, _⟩ := hinv
              have := hmax i L hc hlt3
              omega
        · intro i hc
          obtain ⟨hr1, hr2, hmm⟩ :=
            @matched_of_lzCand w data pos j0 i (j0 - pos) (show pos + (j0 - pos) = j0 by omega) hc
          rw [hii]
          by_contra hcon
          have hilt : i < i0 := by omega
          have := hmin i (by omega) hilt
          rw [decide_eq_true hmm] at this
          exact Bool.noConfusion this
      | none =>
        have hnone := List.find?_eq_none.mp hfind
        have hnocand : ∀ i L, lzCand w data pos i L → pos + L ≠ j0 := by
          intro i L hc hLj
          obtain ⟨hr1, hr2, hmm⟩ := matched_of_lzCand hLj hc
          have hmem : i ∈ List.range' (pos - w) (pos - (pos - w)) := by
            rw [List.mem_range'_1]
            omega
          have := hnone i hmem
          rw [decide_eq_true hmm] at this
          simp at this
        cases best with
        | none =>
          rw [lzInv] at hinv ⊢
          intro i L hc
          have h1 := hinv i L hc
          have h2 := hnocand i L hc
          omega
        | some dl =>
          obtain ⟨d0, l0⟩ := dl
          obtain ⟨hc0, hd1, hdp, hl0, hmax, hminD⟩ := hinv
          refine ⟨hc0, hd1, hdp, by omega, ?_, hminD⟩
          intro i L hc hlt2
          have := hnocand i L hc
          exact hmax i L hc (by omega)
    have := ih (j0 + 1)
      (match (List.range' (pos - w) (pos - (pos - w))).find?
          (fun i => decide (matchedAt data pos (pySlice data pos j0) i)) with
        | some i => some (pos - i, (pySlice data pos j0).length)
        | none => best)
      (by omega) (by omega) (by omega) hstep
    have harr : j0 + 1 + m = j0 + (m + 1) := by omega
    rw [harr] at this
    exact this

/-- C9: the tie-break of `findLongestMatch`.  Whenever a match is
returned, its length is maximal among all candidate matches (the
index pairs the double loop tests, `lzCand`), and among the candidates
of that maximal length the returned one has the smallest window start
`i = pos - d`, i.e. the largest distance — because the best match is
only replaced on a strictly greater length while `i` is scanned in
ascending order. -/
theorem claim_C9_tiebreak (w : Nat) (data : List Nat) (pos d l : Nat)
    (h : findLongestMatch w data pos = some (d, l)) :
    lzCand w data pos (pos - d) l ∧
    (∀ i L, lzCand w data pos i L → L ≤ l) ∧
    (∀ i, lzCand w data pos i l → pos - d ≤ i) := by
  rw [findLongestMatch] at h
  by_cases hrange : pos + 2 ≤ min (pos + 15) (data.length + 1)
  · have hinv := flmOuter_invariant w data pos
      (min (pos + 15) (data.length + 1) - (pos + 2)) (pos + 2) none
      (le_refl _) (by omega) (by omega)
      (by
        rw [lzInv]
        intro i L hc
        obtain ⟨_, _, h3, _, _, _⟩ := hc
        omega)
    cases hres : flmOuter w data pos
        (List.range' (pos + 2) (min (pos + 15) (data.length + 1) - (pos + 2))) none with
    | none =>
      rw [hres] at h
      simp at h
    | some dl =>
      obtain ⟨d0, l0⟩ := dl
      rw [hres] at h hinv
      obtain ⟨hc0, hd1, hdp, hl0, hmax, hminD⟩ := hinv
      have hl2 : 2 ≤ l0 := hc0.2.2.1
      have h' : (if 0 < d0 ∧ 0 < l0 then some (d0, l0) else none) = some (d, l) := h
      rw [if_pos (by omega)] at h'
      injection h' with h''
      injection h'' with hd0 hl0eq
      subst hd0
      subst hl0eq
      refine ⟨hc0, ?_, hminD⟩
      intro i L hc
      have hend : pos + L < pos + 2 + (min (pos + 15) (data.length + 1) - (pos + 2)) := by
        obtain ⟨_, _, hL2, hL14, hLlen, _⟩ := hc
        omega
      exact hmax i L hc hend
  · have hn : min (pos + 15) (data.length + 1) - (pos + 2) = 0 := by omega
    rw [hn, List.range'_zero, flmOuter] at h
    simp at h

/-- Witness for C9 at the concrete search over `"aaaaaaaaaa"` at
position 1: the returned match `(distance 1, length 9)` corresponds to
the candidate at window start 0, and the candidate at window start 0
of length 9 has length at most the returned 9. -/
theorem claim_C9_tiebreak_witness :
    lzCand 20 (List.replicate 10 97) 1 (1 - 1) 9 ∧ (9 : Nat) ≤ 9 :=
  ⟨(claim_C9_tiebreak 20 (List.replicate 10 97) 1 1 9 (by decide)).1,
   (claim_C9_tiebreak 20 (List.replicate 10 97) 1 1 9 (by decide)).2.1 0 9 (by decide)⟩
